import Mathlib

set_option maxHeartbeats 1000000

/-!
Shallow embedding of the Trie crate (`src/lib.rs`).

Strings are lists of Unicode scalar values (`List Char`, matching Rust's
`str::chars()`); `HashMap<char, TrieNode>` is embedded as a key-unique
association list `List (Char × TrieNode)` (iteration order is a fixed but
arbitrary choice, as a hash map's order is unspecified).  The interior
mutation of the Rust code is expressed by pure functions that rebuild the
tree along the mutated path; `Cell<Option<usize>>` becomes an `Option Nat`
field.  Operations that can panic (`Option::unwrap` in `remove` and
`remove_pref`) return `Option`, with `none` marking a panic.
-/

/-- UTF-8 byte length of a string, Rust's `str::len()`. -/
def utf8Len (s : List Char) : Nat := (s.map Char.utf8Size).sum

/-- `struct TrieNode { map: HashMap<char, TrieNode>, end_of_word: bool }`. -/
inductive TrieNode : Type where
  | mk (map : List (Char × TrieNode)) (end_of_word : Bool)

/-- The `map` field of a `TrieNode`. -/
def TrieNode.map : TrieNode → List (Char × TrieNode)
  | .mk m _ => m

/-- The `end_of_word` field of a `TrieNode`. -/
def TrieNode.end_of_word : TrieNode → Bool
  | .mk _ e => e

/-- `HashMap::get`: look a key up in the child map. -/
def lookupChild : List (Char × TrieNode) → Char → Option TrieNode
  | [], _ => none
  | (c, t) :: rest, d => if c = d then some t else lookupChild rest d

/-- Replace the value stored under an existing key (in-place `get_mut` write). -/
def updateChild : List (Char × TrieNode) → Char → TrieNode → List (Char × TrieNode)
  | [], _, _ => []
  | (c, t) :: rest, d, v => if c = d then (c, v) :: rest else (c, t) :: updateChild rest d v

/-- `HashMap::remove`: drop the entry of a key. -/
def removeChild : List (Char × TrieNode) → Char → List (Char × TrieNode)
  | [], _ => []
  | (c, t) :: rest, d => if c = d then rest else (c, t) :: removeChild rest d

/-- Whether a key occurs in the child map. -/
def containsKey : List (Char × TrieNode) → Char → Bool
  | [], _ => false
  | (c, _) :: rest, d => c = d || containsKey rest d

/-- Keys are pairwise distinct (a `HashMap` invariant). -/
def keysNodup : List (Char × TrieNode) → Bool
  | [] => true
  | (c, _) :: rest => !containsKey rest c && keysNodup rest

/-- Number of terminal (`end_of_word`) nodes in all subtrees of a child list. -/
def countChildren : List (Char × TrieNode) → Nat
  | [] => 0
  | (_, .mk m e) :: rest => (if e then 1 else 0) + countChildren m + countChildren rest

/-- Number of terminal nodes of a node's subtree, the node itself included. -/
def countTerminals (n : TrieNode) : Nat :=
  (if n.end_of_word then 1 else 0) + countChildren n.map

/-- `walk_nodes` (lib.rs:280-296): depth-first collection of all strings spelled
by terminal nodes strictly below the given child list, each prefixed by `pre`. -/
def walkChildren : List Char → List (Char × TrieNode) → List (List Char)
  | _, [] => []
  | pre, (c, .mk m e) :: rest =>
    (if e then [pre ++ [c]] else []) ++
    (if m.isEmpty then [] else walkChildren (pre ++ [c]) m) ++
    walkChildren pre rest

/-- Well-formedness of a child list: keys distinct at every level. -/
def childrenWF : List (Char × TrieNode) → Bool
  | [] => true
  | (c, .mk m _) :: rest => !containsKey rest c && (childrenWF m && childrenWF rest)

/-- Structure invariant of §3.2 below the root: every node in the list is either
terminal or has children, recursively. -/
def prunedChildren : List (Char × TrieNode) → Bool
  | [] => true
  | (_, .mk m e) :: rest => (e || !m.isEmpty) && (prunedChildren m && prunedChildren rest)

/-- The §3.2 invariant for a single (non-root) node. -/
def prunedN (n : TrieNode) : Bool :=
  (n.end_of_word || !n.map.isEmpty) && prunedChildren n.map

/-- A terminal node exists somewhere in the subtrees of a child list. -/
def hasTerminalL : List (Char × TrieNode) → Bool
  | [] => false
  | (_, .mk m e) :: rest => e || hasTerminalL m || hasTerminalL rest

/-- The node is terminal or has a terminal descendant. -/
def hasTerminal (n : TrieNode) : Bool :=
  n.end_of_word || hasTerminalL n.map

/-- The children of a popped node whose own maps are non-empty (these get
pushed on the traversal stack in `size`, lib.rs:44-50). -/
def nonEmptyChildNodes : List (Char × TrieNode) → List TrieNode
  | [] => []
  | (_, t) :: rest =>
    if t.map.isEmpty then nonEmptyChildNodes rest else t :: nonEmptyChildNodes rest

/-- The number of children of a popped node whose own maps are empty (these are
counted directly in `size`, lib.rs:45-46). -/
def emptyChildCount : List (Char × TrieNode) → Nat
  | [] => 0
  | (_, t) :: rest => (if t.map.isEmpty then 1 else 0) + emptyChildCount rest

/-- The iterative counting pass of `size` (lib.rs:36-51): pop a node, count it
if terminal, count childless children directly, push the others. -/
def sizeLoop : List TrieNode → Nat → Nat
  | [], acc => acc
  | .mk m e :: stack, acc =>
    sizeLoop (nonEmptyChildNodes m ++ stack)
      (acc + (if e then 1 else 0) + emptyChildCount m)
termination_by stack _ => (stack.map sizeOf).sum
decreasing_by
  have key : ∀ l : List (Char × TrieNode), ((nonEmptyChildNodes l).map sizeOf).sum ≤ sizeOf l := by
    intro l
    induction l with
    | nil => simp [nonEmptyChildNodes]
    | cons p rest ih =>
      obtain ⟨c, t⟩ := p
      have hcons : sizeOf ((c, t) :: rest) = 1 + sizeOf (c, t) + sizeOf rest := by simp_arith
      cases ht : t.map.isEmpty <;> simp [nonEmptyChildNodes, ht] <;> omega
  simp only [List.map_append, List.sum_append, List.map_cons, List.sum_cons]
  have h1 : ((nonEmptyChildNodes m).map sizeOf).sum ≤ sizeOf m := key m
  have h2 : sizeOf m < sizeOf (TrieNode.mk m e) := by simp_arith
  omega

/-- Walk of the edge path, returning the node at its end (the common loop of
`contains`, `contains_pref`, `as_vec_pref`). -/
def findNode : TrieNode → List Char → Option TrieNode
  | n, [] => some n
  | n, c :: cs =>
    match lookupChild n.map c with
    | some t => findNode t cs
    | none => none

/-- The path exists and ends at a terminal node: `s` is stored below `n`. -/
def terminalIn (n : TrieNode) (s : List Char) : Bool :=
  match findNode n s with
  | some m => m.end_of_word
  | none => false

/-- The walking part of `insert` (lib.rs:93-105): create missing nodes along
the path, then set the terminal flag; the returned Bool is `is_new`. -/
def insGo : TrieNode → List Char → TrieNode × Bool
  | .mk m e, [] => if e then (.mk m e, false) else (.mk m true, true)
  | .mk m e, c :: cs =>
    match lookupChild m c with
    | some child =>
      let r := insGo child cs
      (.mk (updateChild m c r.1) e, r.2)
    | none =>
      let r := insGo (.mk [] false) cs
      (.mk (m ++ [(c, r.1)]) e, r.2)

/-- Clear the terminal flag of the node at the end of the path
(`node.end_of_word = false`, lib.rs:151, expressed as a path rebuild). -/
def clearFlagAt : TrieNode → List Char → Option TrieNode
  | n, [] => some (.mk n.map false)
  | n, c :: cs =>
    match lookupChild n.map c with
    | some next =>
      match clearFlagAt next cs with
      | some next2 => some (.mk (updateChild n.map c next2) n.end_of_word)
      | none => none
    | none => none

/-- Second loop of `remove`/`remove_pref` (lib.rs:159-165 and 202-208): walk
down `i` steps and detach the child there; `none` is the `get_mut` unwrap
panic on a missing intermediate child. -/
def removeAt : TrieNode → List Char → Nat → Option TrieNode
  | n, [], _ => some n
  | n, c :: _, 0 => some (.mk (removeChild n.map c) n.end_of_word)
  | n, c :: cs, i + 1 =>
    match lookupChild n.map c with
    | some next =>
      match removeAt next cs i with
      | some next2 => some (.mk (updateChild n.map c next2) n.end_of_word)
      | none => none
    | none => none

/-- First loop of `remove` (lib.rs:122-141): walk the path keeping the cut
index `remove_index` up to date; `none` means a missing child (`return false`),
otherwise the final node and the final `remove_index` are returned. -/
def removeWalk : TrieNode → List Char → Nat → Option Nat → Option (TrieNode × Option Nat)
  | n, [], _, ri => some (n, ri)
  | n, c :: cs, i, ri =>
    let ri1 := if n.end_of_word then none else ri
    match lookupChild n.map c with
    | some next =>
      let ri2 :=
        if next.map.length > 1 then none
        else if ri1 = none then some i else ri1
      removeWalk next cs (i + 1) ri2
    | none => none

/-- First loop of `remove_pref` (lib.rs:184-198).  `lastIdx` is `s.len() - 1`
computed from the BYTE length of `s`, compared against the char index `i`. -/
def removePrefWalk : TrieNode → List Char → Nat → Option Nat → Nat → Option (Option Nat)
  | _, [], _, ri, _ => some ri
  | n, c :: cs, i, ri, lastIdx =>
    match lookupChild n.map c with
    | some next =>
      let ri2 :=
        if next.map.length > 1 ∧ i ≠ lastIdx then none
        else if ri = none then some i else ri
      removePrefWalk next cs (i + 1) ri2 lastIdx
    | none => none

/-- `struct Trie { root: TrieNode, stored_size: Cell<Option<usize>> }`. -/
structure Trie where
  root : TrieNode
  stored_size : Option Nat

/-- `Trie::new` (lib.rs:18-28). -/
def Trie.new : Trie := ⟨.mk [] false, some 0⟩

/-- `edit_size` (lib.rs:58-75): bump the cached size by one in the given
direction; on `None` or on a decrement at zero, leave it as it is. -/
def editSize (o : Option Nat) (incr : Bool) : Option Nat :=
  match o with
  | none => none
  | some s =>
    if incr then some (s + 1)
    else if s ≠ 0 then some (s - 1)
    else some s

/-- `size` (lib.rs:31-55): cached value if present, else the counting pass,
whose result is stored back into the cache (the second component). -/
def Trie.size (t : Trie) : Nat × Trie :=
  match t.stored_size with
  | some n => (n, t)
  | none =>
    let n := sizeLoop (t.root.map.map Prod.snd) 0
    (n, ⟨t.root, some n⟩)

/-- `is_empty` (lib.rs:77-79). -/
def Trie.isEmpty (t : Trie) : Bool := t.root.map.isEmpty

/-- `clear` (lib.rs:81-84). -/
def Trie.clear (t : Trie) : Trie := ⟨.mk [] t.root.end_of_word, some 0⟩

/-- `insert` (lib.rs:88-111). -/
def Trie.insert (t : Trie) (s : List Char) : Trie × Bool :=
  if s = [] then (t, false)
  else
    let r := insGo t.root s
    (⟨r.1, if r.2 then editSize t.stored_size true else t.stored_size⟩, r.2)

/-- `remove` (lib.rs:115-169); `none` is a panic of one of the two unwraps. -/
def Trie.remove (t : Trie) (s : List Char) : Option (Trie × Bool) :=
  if s = [] then some (t, false)
  else
    match removeWalk t.root s 0 none with
    | none => some (t, false)
    | some (target, ri) =>
      if target.end_of_word = false then some (t, false)
      else if target.map.isEmpty = false then
        match clearFlagAt t.root s with
        | some root2 => some (⟨root2, editSize t.stored_size false⟩, true)
        | none => none
      else
        match ri with
        | none => none
        | some idx =>
          match removeAt t.root s idx with
          | some root2 => some (⟨root2, editSize t.stored_size false⟩, true)
          | none => none

/-- `remove_pref` (lib.rs:174-212); `none` is a panic of one of the two
unwraps.  Note the single-`char` fast path tests the BYTE length and sets the
cache to `None` before looking the child up. -/
def Trie.removePref (t : Trie) (s : List Char) : Option (Trie × Bool) :=
  match s with
  | [] => some (t, false)
  | c :: cs =>
    if utf8Len (c :: cs) = 1 then
      some (⟨.mk (removeChild t.root.map c) t.root.end_of_word, none⟩,
        (lookupChild t.root.map c).isSome)
    else
      match removePrefWalk t.root (c :: cs) 0 none (utf8Len (c :: cs) - 1) with
      | none => some (t, false)
      | some none => none
      | some (some idx) =>
        match removeAt t.root (c :: cs) idx with
        | some root2 => some (⟨root2, none⟩, true)
        | none => none

/-- `contains` (lib.rs:215-225). -/
def Trie.contains (t : Trie) (s : List Char) : Bool :=
  match findNode t.root s with
  | some n => n.end_of_word
  | none => false

/-- `contains_pref` (lib.rs:228-239). -/
def Trie.containsPref (t : Trie) (s : List Char) : Bool :=
  (findNode t.root s).isSome

/-- `as_vec` (lib.rs:243-249). -/
def Trie.asVec (t : Trie) : List (List Char) :=
  walkChildren [] t.root.map

/-- `as_vec_pref` (lib.rs:252-276). -/
def Trie.asVecPref (t : Trie) (s : List Char) : List (List Char) :=
  if s = [] then []
  else
    match findNode t.root s with
    | none => []
    | some n => (if n.end_of_word then [s] else []) ++ walkChildren s n.map

/-- The representation invariant of a reachable `Trie`: well-formed key-unique
maps, a never-terminal root, the §3.2 pruning invariant below the root, and an
exact cached size whenever the cache holds a value. -/
def TrieInv (t : Trie) : Prop :=
  childrenWF t.root.map = true ∧
  t.root.end_of_word = false ∧
  prunedChildren t.root.map = true ∧
  ∀ k, t.stored_size = some k → k = countTerminals t.root

/-- Trie states reachable through the public interface, starting from
`Trie::new` and applying operations that complete without panicking. -/
inductive Reachable : Trie → Prop where
  | new : Reachable Trie.new
  | insert {t : Trie} (s : List Char) : Reachable t → Reachable (t.insert s).1
  | remove {t t2 : Trie} {b : Bool} (s : List Char) :
      Reachable t → t.remove s = some (t2, b) → Reachable t2
  | removePref {t t2 : Trie} {b : Bool} (s : List Char) :
      Reachable t → t.removePref s = some (t2, b) → Reachable t2
  | clear {t : Trie} : Reachable t → Reachable t.clear
  | size {t : Trie} : Reachable t → Reachable (t.size).2

/-- Loop invariant of the `remove_index` tracking in `remove` at the entry of
the iteration for char index `i`: if the index is unset, either nothing has
been consumed yet or the current node branches; if it is set to `idx`, the
node whose child would be detached is the root, terminal, or branching, and
the chain strictly below it so far is non-terminal with at most one child
each. -/
def WalkInv (root : TrieNode) (s : List Char) (i : Nat) (ri : Option Nat) : Prop :=
  match ri with
  | none =>
      i = 0 ∨ ∃ m, findNode root (s.take i) = some m ∧ 2 ≤ m.map.length
  | some idx =>
      idx < i ∧
      (idx = 0 ∨ ∃ p, findNode root (s.take idx) = some p ∧
        (p.end_of_word = true ∨ 2 ≤ p.map.length)) ∧
      (∀ j, idx < j → j < i →
        ∃ m, findNode root (s.take j) = some m ∧ m.end_of_word = false) ∧
      (∀ j, idx < j → j ≤ i →
        ∃ m, findNode root (s.take j) = some m ∧ m.map.length ≤ 1)

/-- Loop invariant of the `remove_index` tracking in `remove_pref`: only the
branching fact about the cut point is kept (its tracking has no terminal-flag
reset). -/
def WalkInvP (root : TrieNode) (s : List Char) (i : Nat) (ri : Option Nat) : Prop :=
  match ri with
  | none =>
      i = 0 ∨ ∃ m, findNode root (s.take i) = some m ∧ 2 ≤ m.map.length
  | some idx =>
      idx < i ∧
      (idx = 0 ∨ ∃ p, findNode root (s.take idx) = some p ∧ 2 ≤ p.map.length)

/-- The path below `n` is a bare chain: along `s'` every node has at most one
child, the inner nodes are non-terminal, and the last node is a terminal leaf
(this is the subtree shape detached by the pruning branch of `remove`). -/
def ChainF (n : TrieNode) (s' : List Char) : Prop :=
  ∀ k, k ≤ s'.length →
    ∃ m, findNode n (s'.take k) = some m ∧ m.map.length ≤ 1 ∧
      (k < s'.length → m.end_of_word = false) ∧
      (k = s'.length → m.end_of_word = true ∧ m.map = [])

/-- Total number of terminal nodes on a traversal stack. -/
def sumCT : List TrieNode → Nat
  | [] => 0
  | n :: rest => countTerminals n + sumCT rest

/-! ### Association-list lemmas -/

theorem lookupChild_mem {l : List (Char × TrieNode)} {c : Char} {t : TrieNode}
    (h : lookupChild l c = some t) : (c, t) ∈ l := by
  induction l with
  | nil => simp [lookupChild] at h
  | cons p rest ih =>
    obtain ⟨c', t'⟩ := p
    by_cases hc : c' = c
    · subst hc
      simp [lookupChild] at h
      simp [h]
    · simp [lookupChild, hc] at h
      simp [ih h]

theorem mem_containsKey {l : List (Char × TrieNode)} {c : Char} {t : TrieNode}
    (h : (c, t) ∈ l) : containsKey l c = true := by
  induction l with
  | nil => simp at h
  | cons p rest ih =>
    obtain ⟨c', t'⟩ := p
    rcases List.mem_cons.1 h with h1 | h1
    · rw [Prod.mk.injEq] at h1
      simp [containsKey, h1.1]
    · simp [containsKey, ih h1]

theorem mem_lookupChild {l : List (Char × TrieNode)} {c : Char} {t : TrieNode}
    (hnd : keysNodup l = true) (h : (c, t) ∈ l) : lookupChild l c = some t := by
  induction l with
  | nil => simp at h
  | cons p rest ih =>
    obtain ⟨c', t'⟩ := p
    simp [keysNodup] at hnd
    rcases List.mem_cons.1 h with h1 | h1
    · rw [Prod.mk.injEq] at h1
      obtain ⟨rfl, rfl⟩ := h1
      simp [lookupChild]
    · have hne : c' ≠ c := by
        intro hcc
        subst hcc
        rw [mem_containsKey h1] at hnd
        simp at hnd
      simp [lookupChild, hne, ih hnd.2 h1]

theorem containsKey_eq_isSome (l : List (Char × TrieNode)) (c : Char) :
    containsKey l c = (lookupChild l c).isSome := by
  induction l with
  | nil => simp [containsKey, lookupChild]
  | cons p rest ih =>
    obtain ⟨c', t'⟩ := p
    by_cases hc : c' = c <;> simp [containsKey, lookupChild, hc, ih]

theorem lookupChild_updateChild_self {l : List (Char × TrieNode)} {c : Char} {w : TrieNode}
    (v : TrieNode) (h : lookupChild l c = some w) :
    lookupChild (updateChild l c v) c = some v := by
  induction l with
  | nil => simp [lookupChild] at h
  | cons p rest ih =>
    obtain ⟨c', t'⟩ := p
    by_cases hc : c' = c
    · subst hc; simp [lookupChild, updateChild]
    · simp [lookupChild, updateChild, hc] at h ⊢
      exact ih h

theorem lookupChild_updateChild_ne {l : List (Char × TrieNode)} {c d : Char}
    (v : TrieNode) (h : d ≠ c) :
    lookupChild (updateChild l c v) d = lookupChild l d := by
  induction l with
  | nil => simp [updateChild]
  | cons p rest ih =>
    obtain ⟨c', t'⟩ := p
    by_cases hc : c' = c
    · subst hc
      simp [updateChild, lookupChild, Ne.symm h]
    · by_cases hd : c' = d
      · subst hd
        simp [updateChild, lookupChild, hc]
      · simp [updateChild, lookupChild, hc, hd, ih]

theorem updateChild_self {l : List (Char × TrieNode)} {c : Char} {v : TrieNode}
    (h : lookupChild l c = some v) : updateChild l c v = l := by
  induction l with
  | nil => rfl
  | cons p rest ih =>
    obtain ⟨c', t'⟩ := p
    by_cases hc : c' = c
    · subst hc
      simp [lookupChild] at h
      simp [updateChild, h]
    · simp [lookupChild, hc] at h
      simp [updateChild, hc, ih h]

theorem updateChild_length (l : List (Char × TrieNode)) (c : Char) (v : TrieNode) :
    (updateChild l c v).length = l.length := by
  induction l with
  | nil => rfl
  | cons p rest ih =>
    obtain ⟨c', t'⟩ := p
    by_cases hc : c' = c <;> simp [updateChild, hc, ih]

theorem containsKey_updateChild (l : List (Char × TrieNode)) (c d : Char) (v : TrieNode) :
    containsKey (updateChild l c v) d = containsKey l d := by
  induction l with
  | nil => rfl
  | cons p rest ih =>
    obtain ⟨c', t'⟩ := p
    by_cases hc : c' = c <;> simp [updateChild, containsKey, hc, ih]

theorem lookupChild_append_self {l : List (Char × TrieNode)} {c : Char}
    (v : TrieNode) (h : lookupChild l c = none) :
    lookupChild (l ++ [(c, v)]) c = some v := by
  induction l with
  | nil => simp [lookupChild]
  | cons p rest ih =>
    obtain ⟨c', t'⟩ := p
    by_cases hc : c' = c
    · subst hc; simp [lookupChild] at h
    · simp [lookupChild, hc] at h ⊢
      exact ih h

theorem lookupChild_append_ne {l : List (Char × TrieNode)} {c d : Char}
    (v : TrieNode) (h : d ≠ c) :
    lookupChild (l ++ [(c, v)]) d = lookupChild l d := by
  induction l with
  | nil => simp [lookupChild, Ne.symm h]
  | cons p rest ih =>
    obtain ⟨c', t'⟩ := p
    by_cases hd : c' = d <;> simp [lookupChild, hd, ih]

theorem lookupChild_removeChild_self {l : List (Char × TrieNode)} {c : Char}
    (hnd : keysNodup l = true) : lookupChild (removeChild l c) c = none := by
  induction l with
  | nil => rfl
  | cons p rest ih =>
    obtain ⟨c', t'⟩ := p
    simp [keysNodup] at hnd
    by_cases hc : c' = c
    · subst hc
      have h2 : (lookupChild rest c').isSome = false := by
        rw [← containsKey_eq_isSome]
        exact hnd.1
      simp [removeChild]
      cases h : lookupChild rest c'
      · rfl
      · rw [h] at h2
        simp at h2
    · simp [removeChild, lookupChild, hc, ih hnd.2]

theorem lookupChild_removeChild_ne {l : List (Char × TrieNode)} {c d : Char} (h : d ≠ c) :
    lookupChild (removeChild l c) d = lookupChild l d := by
  induction l with
  | nil => rfl
  | cons p rest ih =>
    obtain ⟨c', t'⟩ := p
    by_cases hc : c' = c
    · subst hc
      simp [removeChild, lookupChild, Ne.symm h]
    · by_cases hd : c' = d
      · subst hd
        simp [removeChild, lookupChild, hc]
      · simp [removeChild, lookupChild, hc, hd, ih]

theorem removeChild_of_none {l : List (Char × TrieNode)} {c : Char}
    (h : lookupChild l c = none) : removeChild l c = l := by
  induction l with
  | nil => rfl
  | cons p rest ih =>
    obtain ⟨c', t'⟩ := p
    by_cases hc : c' = c
    · subst hc; simp [lookupChild] at h
    · simp [lookupChild, hc] at h
      simp [removeChild, hc, ih h]

theorem removeChild_length {l : List (Char × TrieNode)} {c : Char} {w : TrieNode}
    (h : lookupChild l c = some w) : (removeChild l c).length + 1 = l.length := by
  induction l with
  | nil => simp [lookupChild] at h
  | cons p rest ih =>
    obtain ⟨c', t'⟩ := p
    by_cases hc : c' = c
    · subst hc; simp [removeChild]
    · simp [lookupChild, hc] at h
      simp [removeChild, hc, ih h]

theorem containsKey_removeChild_le {l : List (Char × TrieNode)} {c d : Char}
    (h : containsKey (removeChild l c) d = true) : containsKey l d = true := by
  induction l with
  | nil => exact h
  | cons p rest ih =>
    obtain ⟨c', t'⟩ := p
    by_cases hc : c' = c
    · subst hc
      simp [removeChild] at h
      simp [containsKey, h]
    · simp only [removeChild, if_neg hc] at h
      simp only [containsKey] at h ⊢
      rcases Bool.or_eq_true_iff.1 h with h1 | h1
      · simp [h1]
      · simp [ih h1]

/-! ### Unfolding lemmas for the tree-recursive functions -/

theorem childrenWF_cons (c : Char) (t : TrieNode) (rest : List (Char × TrieNode)) :
    childrenWF ((c, t) :: rest) = (!containsKey rest c && (childrenWF t.map && childrenWF rest)) := by
  cases t
  simp [childrenWF, TrieNode.map]

theorem prunedChildren_cons (c : Char) (t : TrieNode) (rest : List (Char × TrieNode)) :
    prunedChildren ((c, t) :: rest)
      = ((t.end_of_word || !t.map.isEmpty) && (prunedChildren t.map && prunedChildren rest)) := by
  cases t
  simp [prunedChildren, TrieNode.map, TrieNode.end_of_word]

theorem countChildren_cons (c : Char) (t : TrieNode) (rest : List (Char × TrieNode)) :
    countChildren ((c, t) :: rest) = countTerminals t + countChildren rest := by
  cases t
  simp [countChildren, countTerminals, TrieNode.end_of_word, TrieNode.map]

theorem hasTerminalL_cons (c : Char) (t : TrieNode) (rest : List (Char × TrieNode)) :
    hasTerminalL ((c, t) :: rest) = (t.end_of_word || hasTerminalL t.map || hasTerminalL rest) := by
  cases t
  simp [hasTerminalL, TrieNode.map, TrieNode.end_of_word]

theorem walkChildren_cons (pre : List Char) (c : Char) (t : TrieNode)
    (rest : List (Char × TrieNode)) :
    walkChildren pre ((c, t) :: rest)
      = (if t.end_of_word then [pre ++ [c]] else []) ++
        (if t.map.isEmpty then [] else walkChildren (pre ++ [c]) t.map) ++
        walkChildren pre rest := by
  cases t
  simp [walkChildren, TrieNode.map, TrieNode.end_of_word]

theorem walkChildren_nil (pre : List Char) : walkChildren pre [] = [] := by
  simp [walkChildren]

theorem walkChildren_guard (pre : List Char) (m : List (Char × TrieNode)) :
    (if m.isEmpty then ([] : List (List Char)) else walkChildren pre m) = walkChildren pre m := by
  cases m <;> simp [walkChildren]

/-! ### Well-formedness propagation -/

theorem keysNodup_of_childrenWF {l : List (Char × TrieNode)} (h : childrenWF l = true) :
    keysNodup l = true := by
  induction l with
  | nil => rfl
  | cons p rest ih =>
    obtain ⟨c, t⟩ := p
    rw [childrenWF_cons] at h
    simp at h
    simp [keysNodup, h.1, ih h.2.2]

theorem childrenWF_mem {l : List (Char × TrieNode)} {c : Char} {t : TrieNode}
    (h : childrenWF l = true) (hm : (c, t) ∈ l) : childrenWF t.map = true := by
  induction l with
  | nil => simp at hm
  | cons p rest ih =>
    obtain ⟨c', t'⟩ := p
    rw [childrenWF_cons] at h
    simp at h
    rcases List.mem_cons.1 hm with h1 | h1
    · rw [Prod.mk.injEq] at h1
      exact h1.2 ▸ h.2.1
    · exact ih h.2.2 h1

theorem childrenWF_updateChild {l : List (Char × TrieNode)} {c : Char} {v : TrieNode}
    (h : childrenWF l = true) (hv : childrenWF v.map = true) :
    childrenWF (updateChild l c v) = true := by
  induction l with
  | nil => simp [updateChild, childrenWF]
  | cons p rest ih =>
    obtain ⟨c', t'⟩ := p
    rw [childrenWF_cons] at h
    simp at h
    by_cases hc : c' = c
    · subst hc
      have hu : updateChild ((c', t') :: rest) c' v = (c', v) :: rest := by simp [updateChild]
      rw [hu, childrenWF_cons]
      simp [h.1, h.2.2, hv]
    · have hu : updateChild ((c', t') :: rest) c v = (c', t') :: updateChild rest c v := by
        simp [updateChild, hc]
      rw [hu, childrenWF_cons]
      simp [containsKey_updateChild, h.1, h.2.1, ih h.2.2]

theorem childrenWF_append {l : List (Char × TrieNode)} {c : Char} {v : TrieNode}
    (h : childrenWF l = true) (habs : lookupChild l c = none)
    (hv : childrenWF v.map = true) :
    childrenWF (l ++ [(c, v)]) = true := by
  induction l with
  | nil => simp [childrenWF_cons, containsKey, hv, childrenWF]
  | cons p rest ih =>
    obtain ⟨c', t'⟩ := p
    rw [childrenWF_cons] at h
    simp at h
    have hne : ¬c' = c := by
      intro hcc
      subst hcc
      simp [lookupChild] at habs
    simp [lookupChild, hne] at habs
    have hck : containsKey (rest ++ [(c, v)]) c' = false := by
      have h1 := containsKey_eq_isSome (rest ++ [(c, v)]) c'
      rw [lookupChild_append_ne v hne] at h1
      rw [h1, ← containsKey_eq_isSome]
      exact h.1
    simp only [List.cons_append]
    rw [childrenWF_cons]
    simp [hck, h.2.1, ih h.2.2 habs]

theorem childrenWF_removeChild {l : List (Char × TrieNode)} {c : Char}
    (h : childrenWF l = true) : childrenWF (removeChild l c) = true := by
  induction l with
  | nil => simp [removeChild, childrenWF]
  | cons p rest ih =>
    obtain ⟨c', t'⟩ := p
    rw [childrenWF_cons] at h
    simp at h
    by_cases hc : c' = c
    · subst hc
      simp [removeChild, h.2.2]
    · have hu : removeChild ((c', t') :: rest) c = (c', t') :: removeChild rest c := by
        simp [removeChild, hc]
      rw [hu, childrenWF_cons]
      have hck : containsKey (removeChild rest c) c' = false := by
        cases hx : containsKey (removeChild rest c) c'
        · rfl
        · rw [containsKey_removeChild_le hx] at h
          simp at h
      simp [hck, h.2.1, ih h.2.2]

/-! ### Pruning-invariant propagation -/

theorem prunedChildren_mem {l : List (Char × TrieNode)} {c : Char} {t : TrieNode}
    (h : prunedChildren l = true) (hm : (c, t) ∈ l) : prunedN t = true := by
  induction l with
  | nil => simp at hm
  | cons p rest ih =>
    obtain ⟨c', t'⟩ := p
    rw [prunedChildren_cons] at h
    simp at h
    rcases List.mem_cons.1 hm with h1 | h1
    · rw [Prod.mk.injEq] at h1
      rw [← h1.2] at h
      rw [prunedN]
      rcases h.1 with h2 | h2 <;> simp [h2, h.2.1]
    · exact ih h.2.2 h1

theorem prunedChildren_updateChild {l : List (Char × TrieNode)} {c : Char} {v : TrieNode}
    (h : prunedChildren l = true) (hv : prunedN v = true) :
    prunedChildren (updateChild l c v) = true := by
  induction l with
  | nil => simp [updateChild, prunedChildren]
  | cons p rest ih =>
    obtain ⟨c', t'⟩ := p
    rw [prunedChildren_cons] at h
    simp at h
    rw [prunedN] at hv
    simp at hv
    by_cases hc : c' = c
    · subst hc
      have hu : updateChild ((c', t') :: rest) c' v = (c', v) :: rest := by simp [updateChild]
      rw [hu, prunedChildren_cons]
      simp [hv.1, hv.2, h.2.2]
    · have hu : updateChild ((c', t') :: rest) c v = (c', t') :: updateChild rest c v := by
        simp [updateChild, hc]
      rw [hu, prunedChildren_cons]
      simp [h.1, h.2.1, ih h.2.2]

theorem prunedChildren_append {l : List (Char × TrieNode)} {c : Char} {v : TrieNode}
    (h : prunedChildren l = true) (hv : prunedN v = true) :
    prunedChildren (l ++ [(c, v)]) = true := by
  induction l with
  | nil =>
    rw [prunedN] at hv
    simp at hv
    simp [prunedChildren_cons, prunedChildren]
    constructor
    · rcases hv.1 with h2 | h2 <;> simp [h2]
    · exact hv.2
  | cons p rest ih =>
    obtain ⟨c', t'⟩ := p
    rw [prunedChildren_cons] at h
    simp at h
    simp only [List.cons_append]
    rw [prunedChildren_cons]
    simp [h.1, h.2.1, ih h.2.2]

theorem prunedChildren_removeChild {l : List (Char × TrieNode)} {c : Char}
    (h : prunedChildren l = true) : prunedChildren (removeChild l c) = true := by
  induction l with
  | nil => simp [removeChild, prunedChildren]
  | cons p rest ih =>
    obtain ⟨c', t'⟩ := p
    rw [prunedChildren_cons] at h
    simp at h
    by_cases hc : c' = c
    · subst hc
      simp [removeChild, h.2.2]
    · have hu : removeChild ((c', t') :: rest) c = (c', t') :: removeChild rest c := by
        simp [removeChild, hc]
      rw [hu, prunedChildren_cons]
      simp [h.1, h.2.1, ih h.2.2]

/-! ### Terminal-count bookkeeping -/

theorem countChildren_updateChild {l : List (Char × TrieNode)} {c : Char} {w : TrieNode}
    (v : TrieNode) (h : lookupChild l c = some w) :
    countChildren (updateChild l c v) + countTerminals w
      = countChildren l + countTerminals v := by
  induction l with
  | nil => simp [lookupChild] at h
  | cons p rest ih =>
    obtain ⟨c', t'⟩ := p
    by_cases hc : c' = c
    · subst hc
      simp [lookupChild] at h
      subst h
      have hu : updateChild ((c', t') :: rest) c' v = (c', v) :: rest := by simp [updateChild]
      rw [hu, countChildren_cons, countChildren_cons]
      omega
    · simp [lookupChild, hc] at h
      have hu : updateChild ((c', t') :: rest) c v = (c', t') :: updateChild rest c v := by
        simp [updateChild, hc]
      rw [hu, countChildren_cons, countChildren_cons]
      have := ih h
      omega

theorem countChildren_append (l : List (Char × TrieNode)) (c : Char) (v : TrieNode) :
    countChildren (l ++ [(c, v)]) = countChildren l + countTerminals v := by
  induction l with
  | nil => simp [countChildren_cons, countChildren]
  | cons p rest ih =>
    obtain ⟨c', t'⟩ := p
    simp only [List.cons_append]
    rw [countChildren_cons, countChildren_cons, ih]
    omega

theorem countChildren_removeChild {l : List (Char × TrieNode)} {c : Char} {w : TrieNode}
    (h : lookupChild l c = some w) :
    countChildren (removeChild l c) + countTerminals w = countChildren l := by
  induction l with
  | nil => simp [lookupChild] at h
  | cons p rest ih =>
    obtain ⟨c', t'⟩ := p
    by_cases hc : c' = c
    · subst hc
      simp [lookupChild] at h
      subst h
      have hu : removeChild ((c', t') :: rest) c' = rest := by simp [removeChild]
      rw [hu, countChildren_cons]
      omega
    · simp [lookupChild, hc] at h
      have hu : removeChild ((c', t') :: rest) c = (c', t') :: removeChild rest c := by
        simp [removeChild, hc]
      rw [hu, countChildren_cons, countChildren_cons]
      have := ih h
      omega

theorem TrieNode.map_mk (m : List (Char × TrieNode)) (e : Bool) :
    (TrieNode.mk m e).map = m := rfl

theorem TrieNode.eow_mk (m : List (Char × TrieNode)) (e : Bool) :
    (TrieNode.mk m e).end_of_word = e := rfl

theorem countTerminals_mk (m : List (Char × TrieNode)) (e : Bool) :
    countTerminals (TrieNode.mk m e) = (if e then 1 else 0) + countChildren m := rfl

theorem countTerminals_def (n : TrieNode) :
    countTerminals n = (if n.end_of_word then 1 else 0) + countChildren n.map := rfl

/-! ### Path-walking lemmas -/

theorem findNode_nil (n : TrieNode) : findNode n [] = some n := rfl

theorem findNode_cons (n : TrieNode) (c : Char) (cs : List Char) :
    findNode n (c :: cs)
      = match lookupChild n.map c with
        | some t => findNode t cs
        | none => none := rfl

theorem findNode_append (n : TrieNode) (u v : List Char) :
    findNode n (u ++ v) = (findNode n u).bind (fun m => findNode m v) := by
  induction u generalizing n with
  | nil => simp [findNode]
  | cons c cs ih =>
    rw [List.cons_append, findNode_cons, findNode_cons]
    cases lookupChild n.map c with
    | none => simp
    | some t => simp [ih t]

theorem findNode_take_of_some {n : TrieNode} {s : List Char} {m : TrieNode}
    (h : findNode n s = some m) (k : Nat) : ∃ q, findNode n (s.take k) = some q := by
  have hs : s = s.take k ++ s.drop k := (List.take_append_drop k s).symm
  rw [hs, findNode_append] at h
  cases hq : findNode n (s.take k) with
  | none => rw [hq] at h; simp at h
  | some q => exact ⟨q, rfl⟩

theorem terminalIn_nil (n : TrieNode) : terminalIn n [] = n.end_of_word := rfl

theorem terminalIn_cons {n : TrieNode} {c : Char} {cs : List Char} {t : TrieNode}
    (h : lookupChild n.map c = some t) : terminalIn n (c :: cs) = terminalIn t cs := by
  rw [terminalIn, terminalIn, findNode_cons, h]

theorem terminalIn_cons_none {n : TrieNode} {c : Char} (cs : List Char)
    (h : lookupChild n.map c = none) : terminalIn n (c :: cs) = false := by
  rw [terminalIn, findNode_cons, h]

theorem childrenWF_findNode {n : TrieNode} {s : List Char} {m : TrieNode}
    (hwf : childrenWF n.map = true) (h : findNode n s = some m) :
    childrenWF m.map = true := by
  induction s generalizing n with
  | nil => rw [findNode_nil] at h; injection h with h; exact h ▸ hwf
  | cons c cs ih =>
    rw [findNode_cons] at h
    cases hl : lookupChild n.map c with
    | none => rw [hl] at h; simp at h
    | some t =>
      rw [hl] at h
      exact ih (childrenWF_mem hwf (lookupChild_mem hl)) h

theorem prunedN_findNode {n : TrieNode} {s : List Char} {m : TrieNode}
    (hp : prunedChildren n.map = true) (hs : s ≠ []) (h : findNode n s = some m) :
    prunedN m = true := by
  induction s generalizing n with
  | nil => exact absurd rfl hs
  | cons c cs ih =>
    rw [findNode_cons] at h
    cases hl : lookupChild n.map c with
    | none => rw [hl] at h; simp at h
    | some t =>
      rw [hl] at h
      change findNode t cs = some m at h
      have hpt : prunedN t = true := prunedChildren_mem hp (lookupChild_mem hl)
      cases cs with
      | nil => rw [findNode_nil] at h; injection h with h; exact h ▸ hpt
      | cons d ds =>
        rw [prunedN] at hpt
        simp only [Bool.and_eq_true] at hpt
        exact ih hpt.2 (by simp) h

/-! ### Lemmas about the walking part of `insert` -/

theorem insGo_nil (n : TrieNode) :
    insGo n [] = if n.end_of_word then (n, false) else (.mk n.map true, true) := by
  cases n; rfl

theorem insGo_cons (n : TrieNode) (c : Char) (cs : List Char) :
    insGo n (c :: cs)
      = match lookupChild n.map c with
        | some child => (.mk (updateChild n.map c (insGo child cs).1) n.end_of_word, (insGo child cs).2)
        | none => (.mk (n.map ++ [(c, (insGo (.mk [] false) cs).1)]) n.end_of_word, (insGo (.mk [] false) cs).2) := by
  cases n with
  | mk m e =>
    show insGo (.mk m e) (c :: cs) = _
    rw [insGo]
    simp only [TrieNode.map, TrieNode.end_of_word]

theorem insGo_eow (n : TrieNode) (c : Char) (cs : List Char) :
    (insGo n (c :: cs)).1.end_of_word = n.end_of_word := by
  rw [insGo_cons]
  cases lookupChild n.map c <;> rfl

theorem insGo_terminalIn (n : TrieNode) (s : List Char) :
    terminalIn (insGo n s).1 s = true := by
  induction s generalizing n with
  | nil =>
    rw [insGo_nil]
    cases he : n.end_of_word with
    | true => simp only [he, if_true, terminalIn_nil, he]
    | false =>
      simp only [he, Bool.false_eq_true, if_false]
      simp [terminalIn_nil, TrieNode.end_of_word]
  | cons c cs ih =>
    rw [insGo_cons]
    cases hl : lookupChild n.map c with
    | some child =>
      simp only
      have hl2 : lookupChild (updateChild n.map c (insGo child cs).1) c
          = some (insGo child cs).1 := lookupChild_updateChild_self _ hl
      rw [terminalIn_cons (n := TrieNode.mk (updateChild n.map c (insGo child cs).1) n.end_of_word)
        (by simpa [TrieNode.map] using hl2)]
      exact ih child
    | none =>
      simp only
      have hl2 : lookupChild (n.map ++ [(c, (insGo (.mk [] false) cs).1)]) c
          = some (insGo (.mk [] false) cs).1 := lookupChild_append_self _ hl
      rw [terminalIn_cons (n := TrieNode.mk (n.map ++ [(c, (insGo (.mk [] false) cs).1)]) n.end_of_word)
        (by simpa [TrieNode.map] using hl2)]
      exact ih _

theorem insGo_of_terminalIn {n : TrieNode} {s : List Char}
    (h : terminalIn n s = true) : insGo n s = (n, false) := by
  induction s generalizing n with
  | nil =>
    rw [terminalIn_nil] at h
    rw [insGo_nil, h]
    simp
  | cons c cs ih =>
    cases hl : lookupChild n.map c with
    | none => rw [terminalIn_cons_none cs hl] at h; simp at h
    | some child =>
      rw [terminalIn_cons hl] at h
      rw [insGo_cons, hl]
      simp only [ih h]
      cases n with
      | mk m e =>
        simp only [TrieNode.map, TrieNode.end_of_word] at *
        rw [updateChild_self hl]

theorem insGo_count (n : TrieNode) (s : List Char) :
    countTerminals (insGo n s).1
      = countTerminals n + (if (insGo n s).2 then 1 else 0) := by
  induction s generalizing n with
  | nil =>
    cases n with
    | mk m e =>
      rw [insGo_nil]
      cases e with
      | true => simp [TrieNode.end_of_word]
      | false =>
        simp only [TrieNode.eow_mk, Bool.false_eq_true, if_false]
        rw [countTerminals_mk, countTerminals_mk]
        simp only [TrieNode.map_mk]
        simp
        omega
  | cons c cs ih =>
    cases n with
    | mk m e =>
      cases hl : lookupChild m c with
      | some child =>
        rw [insGo_cons]
        simp only [TrieNode.map, TrieNode.end_of_word, hl]
        have hcc := countChildren_updateChild (l := m) (insGo child cs).1 hl
        have hic := ih child
        rw [countTerminals_mk, countTerminals_mk]
        omega
      | none =>
        rw [insGo_cons]
        simp only [TrieNode.map, TrieNode.end_of_word, hl]
        have hcc := countChildren_append m c (insGo (.mk [] false) cs).1
        have hic := ih (TrieNode.mk [] false)
        rw [countTerminals_mk] at hic
        simp only [Bool.false_eq_true, if_false] at hic
        have hcc0 : countChildren ([] : List (Char × TrieNode)) = 0 := by
          simp [countChildren]
        rw [hcc0] at hic
        rw [countTerminals_mk, countTerminals_mk, hcc]
        omega

theorem insGo_wf {n : TrieNode} (s : List Char) (h : childrenWF n.map = true) :
    childrenWF (insGo n s).1.map = true := by
  induction s generalizing n with
  | nil =>
    rw [insGo_nil]
    cases he : n.end_of_word <;> exact h
  | cons c cs ih =>
    cases hl : lookupChild n.map c with
    | some child =>
      rw [insGo_cons]
      simp only [hl, TrieNode.map_mk]
      exact childrenWF_updateChild h (ih (childrenWF_mem h (lookupChild_mem hl)))
    | none =>
      rw [insGo_cons]
      simp only [hl, TrieNode.map_mk]
      exact childrenWF_append h hl (ih (by rw [TrieNode.map_mk]; simp [childrenWF]))

theorem insGo_pruned_fresh (s : List Char) :
    prunedN (insGo (.mk [] false) s).1 = true := by
  induction s with
  | nil =>
    rw [insGo_nil]
    simp [TrieNode.end_of_word, prunedN, TrieNode.map, prunedChildren]
  | cons c cs ih =>
    rw [insGo_cons]
    simp only [TrieNode.map, lookupChild, List.nil_append]
    rw [prunedN]
    simp only [TrieNode.map, TrieNode.end_of_word]
    rw [prunedChildren_cons]
    rw [prunedN] at ih
    simp only [Bool.and_eq_true] at ih
    simp [prunedChildren, ih.1, ih.2]

theorem insGo_pruned {n : TrieNode} (s : List Char) (h : prunedN n = true) :
    prunedN (insGo n s).1 = true := by
  induction s generalizing n with
  | nil =>
    rw [insGo_nil]
    cases he : n.end_of_word with
    | true => simpa using h
    | false =>
      simp only [he, Bool.false_eq_true, if_false]
      rw [prunedN] at h ⊢
      simp only [TrieNode.map_mk, TrieNode.eow_mk]
      simp only [Bool.and_eq_true] at h
      simp [h.2]
  | cons c cs ih =>
    rw [prunedN] at h
    simp only [Bool.and_eq_true] at h
    cases hl : lookupChild n.map c with
    | some child =>
      rw [insGo_cons]
      simp only [hl, TrieNode.map_mk]
      rw [prunedN]
      simp only [TrieNode.map_mk, TrieNode.eow_mk, Bool.and_eq_true]
      have hchild : prunedN child = true := prunedChildren_mem h.2 (lookupChild_mem hl)
      refine ⟨?_, prunedChildren_updateChild h.2 (ih hchild)⟩
      have hlen : (updateChild n.map c (insGo child cs).1).length = n.map.length :=
        updateChild_length _ _ _
      have hnonempty : n.map ≠ [] := by
        intro hx
        rw [hx] at hl
        simp [lookupChild] at hl
      simp only [Bool.or_eq_true]
      right
      have hne2 : updateChild n.map c (insGo child cs).1 ≠ [] := by
        intro hx
        rw [hx] at hlen
        simp at hlen
        exact hnonempty (List.length_eq_zero.1 hlen.symm)
      simp [List.isEmpty_eq_false, hne2]
    | none =>
      rw [insGo_cons]
      simp only [hl, TrieNode.map_mk]
      rw [prunedN]
      simp only [TrieNode.map_mk, TrieNode.eow_mk, Bool.and_eq_true]
      refine ⟨?_, prunedChildren_append h.2 (insGo_pruned_fresh cs)⟩
      simp only [Bool.or_eq_true]
      right
      simp [List.isEmpty_eq_false]

theorem insGo_prunedChildren {n : TrieNode} (c : Char) (cs : List Char)
    (h : prunedChildren n.map = true) :
    prunedChildren (insGo n (c :: cs)).1.map = true := by
  cases hl : lookupChild n.map c with
  | some child =>
    rw [insGo_cons]
    simp only [hl, TrieNode.map_mk]
    exact prunedChildren_updateChild h
      (insGo_pruned cs (prunedChildren_mem h (lookupChild_mem hl)))
  | none =>
    rw [insGo_cons]
    simp only [hl, TrieNode.map_mk]
    exact prunedChildren_append h (insGo_pruned_fresh cs)

/-! ### Lemmas about clearing the terminal flag -/

theorem clearFlagAt_nil (n : TrieNode) : clearFlagAt n [] = some (.mk n.map false) := rfl

theorem clearFlagAt_cons (n : TrieNode) (c : Char) (cs : List Char) :
    clearFlagAt n (c :: cs)
      = match lookupChild n.map c with
        | some next =>
          (match clearFlagAt next cs with
           | some next2 => some (.mk (updateChild n.map c next2) n.end_of_word)
           | none => none)
        | none => none := rfl

theorem clearFlagAt_some {n : TrieNode} {s : List Char} {m : TrieNode}
    (h : findNode n s = some m) : ∃ n2, clearFlagAt n s = some n2 := by
  induction s generalizing n with
  | nil => exact ⟨_, clearFlagAt_nil n⟩
  | cons c cs ih =>
    rw [findNode_cons] at h
    cases hl : lookupChild n.map c with
    | none => rw [hl] at h; simp at h
    | some next =>
      rw [hl] at h
      change findNode next cs = some m at h
      obtain ⟨n2, h2⟩ := ih h
      rw [clearFlagAt_cons, hl]
      simp only [h2]
      exact ⟨_, rfl⟩

theorem clearFlag_eow {n n2 : TrieNode} {c : Char} {cs : List Char}
    (h : clearFlagAt n (c :: cs) = some n2) : n2.end_of_word = n.end_of_word := by
  rw [clearFlagAt_cons] at h
  cases hl : lookupChild n.map c with
  | none => rw [hl] at h; simp at h
  | some next =>
    rw [hl] at h
    simp only at h
    cases h2 : clearFlagAt next cs with
    | none => rw [h2] at h; simp at h
    | some next2 =>
      rw [h2] at h
      injection h with h
      rw [← h, TrieNode.eow_mk]

theorem clearFlag_map_len {n n2 : TrieNode} {s : List Char}
    (h : clearFlagAt n s = some n2) : n2.map.length = n.map.length := by
  cases s with
  | nil =>
    rw [clearFlagAt_nil] at h
    injection h with h
    rw [← h, TrieNode.map_mk]
  | cons c cs =>
    rw [clearFlagAt_cons] at h
    cases hl : lookupChild n.map c with
    | none => rw [hl] at h; simp at h
    | some next =>
      rw [hl] at h
      simp only at h
      cases h2 : clearFlagAt next cs with
      | none => rw [h2] at h; simp at h
      | some next2 =>
        rw [h2] at h
        injection h with h
        rw [← h, TrieNode.map_mk]
        exact updateChild_length _ _ _

theorem clearFlag_path {n n2 : TrieNode} {s : List Char}
    (h : clearFlagAt n s = some n2) (u : List Char) :
    (findNode n2 u).isSome = (findNode n u).isSome := by
  induction s generalizing n n2 u with
  | nil =>
    rw [clearFlagAt_nil] at h
    injection h with h
    subst h
    cases u with
    | nil => rfl
    | cons d u2 =>
      rw [findNode_cons, findNode_cons, TrieNode.map_mk]
  | cons c cs ih =>
    rw [clearFlagAt_cons] at h
    cases hl : lookupChild n.map c with
    | none => rw [hl] at h; simp at h
    | some next =>
      rw [hl] at h
      simp only at h
      cases h2 : clearFlagAt next cs with
      | none => rw [h2] at h; simp at h
      | some next2 =>
        rw [h2] at h
        injection h with h
        subst h
        cases u with
        | nil => rfl
        | cons d u2 =>
          rw [findNode_cons, findNode_cons, TrieNode.map_mk]
          by_cases hd : d = c
          · subst hd
            rw [lookupChild_updateChild_self next2 hl, hl]
            exact ih h2 u2
          · rw [lookupChild_updateChild_ne next2 hd]

theorem clearFlag_terminalIn_ne {n n2 : TrieNode} {s : List Char}
    (h : clearFlagAt n s = some n2) (u : List Char) (hne : u ≠ s) :
    terminalIn n2 u = terminalIn n u := by
  induction s generalizing n n2 u with
  | nil =>
    rw [clearFlagAt_nil] at h
    injection h with h
    subst h
    cases u with
    | nil => exact absurd rfl hne
    | cons d u2 =>
      rw [terminalIn, terminalIn, findNode_cons, findNode_cons, TrieNode.map_mk]
  | cons c cs ih =>
    rw [clearFlagAt_cons] at h
    cases hl : lookupChild n.map c with
    | none => rw [hl] at h; simp at h
    | some next =>
      rw [hl] at h
      simp only at h
      cases h2 : clearFlagAt next cs with
      | none => rw [h2] at h; simp at h
      | some next2 =>
        rw [h2] at h
        injection h with h
        subst h
        cases u with
        | nil =>
          rw [terminalIn_nil, terminalIn_nil, TrieNode.eow_mk]
        | cons d u2 =>
          by_cases hd : d = c
          · subst hd
            have hu2 : u2 ≠ cs := by
              intro hx
              exact hne (hx ▸ rfl)
            rw [terminalIn_cons (by rw [TrieNode.map_mk]; exact lookupChild_updateChild_self next2 hl),
              terminalIn_cons hl]
            exact ih h2 u2 hu2
          · rw [terminalIn, terminalIn, findNode_cons, findNode_cons, TrieNode.map_mk,
              lookupChild_updateChild_ne next2 hd]

theorem clearFlag_terminalIn_self {n n2 : TrieNode} {s : List Char}
    (h : clearFlagAt n s = some n2) : terminalIn n2 s = false := by
  induction s generalizing n n2 with
  | nil =>
    rw [clearFlagAt_nil] at h
    injection h with h
    subst h
    rw [terminalIn_nil, TrieNode.eow_mk]
  | cons c cs ih =>
    rw [clearFlagAt_cons] at h
    cases hl : lookupChild n.map c with
    | none => rw [hl] at h; simp at h
    | some next =>
      rw [hl] at h
      simp only at h
      cases h2 : clearFlagAt next cs with
      | none => rw [h2] at h; simp at h
      | some next2 =>
        rw [h2] at h
        injection h with h
        subst h
        rw [terminalIn_cons (by rw [TrieNode.map_mk]; exact lookupChild_updateChild_self next2 hl)]
        exact ih h2

theorem clearFlag_count {n n2 : TrieNode} {s : List Char}
    (h : clearFlagAt n s = some n2) (ht : terminalIn n s = true) :
    countTerminals n = countTerminals n2 + 1 := by
  induction s generalizing n n2 with
  | nil =>
    rw [clearFlagAt_nil] at h
    injection h with h
    subst h
    rw [terminalIn_nil] at ht
    cases n with
    | mk m e =>
      rw [TrieNode.eow_mk] at ht
      subst ht
      rw [countTerminals_mk, TrieNode.map_mk, countTerminals_mk]
      simp
      omega
  | cons c cs ih =>
    rw [clearFlagAt_cons] at h
    cases hl : lookupChild n.map c with
    | none => rw [hl] at h; simp at h
    | some next =>
      rw [hl] at h
      simp only at h
      cases h2 : clearFlagAt next cs with
      | none => rw [h2] at h; simp at h
      | some next2 =>
        rw [h2] at h
        injection h with h
        subst h
        rw [terminalIn_cons hl] at ht
        have hcount := ih h2 ht
        have hcc := countChildren_updateChild (l := n.map) next2 hl
        rw [countTerminals_mk, countTerminals_def n]
        omega

theorem clearFlag_wf {n n2 : TrieNode} {s : List Char}
    (hwf : childrenWF n.map = true) (h : clearFlagAt n s = some n2) :
    childrenWF n2.map = true := by
  induction s generalizing n n2 with
  | nil =>
    rw [clearFlagAt_nil] at h
    injection h with h
    subst h
    rw [TrieNode.map_mk]
    exact hwf
  | cons c cs ih =>
    rw [clearFlagAt_cons] at h
    cases hl : lookupChild n.map c with
    | none => rw [hl] at h; simp at h
    | some next =>
      rw [hl] at h
      simp only at h
      cases h2 : clearFlagAt next cs with
      | none => rw [h2] at h; simp at h
      | some next2 =>
        rw [h2] at h
        injection h with h
        subst h
        rw [TrieNode.map_mk]
        exact childrenWF_updateChild hwf
          (ih (childrenWF_mem hwf (lookupChild_mem hl)) h2)

theorem clearFlag_pruned {n n2 tgt : TrieNode} {s : List Char}
    (hp : prunedChildren n.map = true) (h : clearFlagAt n s = some n2)
    (hf : findNode n s = some tgt) (hne : tgt.map.isEmpty = false) :
    prunedChildren n2.map = true := by
  induction s generalizing n n2 with
  | nil =>
    rw [clearFlagAt_nil] at h
    injection h with h
    subst h
    rw [TrieNode.map_mk]
    exact hp
  | cons c cs ih =>
    rw [clearFlagAt_cons] at h
    cases hl : lookupChild n.map c with
    | none => rw [hl] at h; simp at h
    | some next =>
      rw [hl] at h
      simp only at h
      cases h2 : clearFlagAt next cs with
      | none => rw [h2] at h; simp at h
      | some next2 =>
        rw [h2] at h
        injection h with h
        subst h
        rw [findNode_cons, hl] at hf
        change findNode next cs = some tgt at hf
        have hnext : prunedN next = true := prunedChildren_mem hp (lookupChild_mem hl)
        rw [prunedN, Bool.and_eq_true] at hnext
        rw [TrieNode.map_mk]
        refine prunedChildren_updateChild hp ?_
        rw [prunedN, Bool.and_eq_true]
        refine ⟨?_, ih hnext.2 h2 hf⟩
        cases cs with
        | nil =>
          rw [clearFlagAt_nil] at h2
          injection h2 with h2
          rw [findNode_nil] at hf
          injection hf with hf
          subst h2
          subst hf
          simp only [TrieNode.map_mk, Bool.or_eq_true]
          right
          simp only [Bool.not_eq_eq_eq_not, Bool.not_true]
          exact hne
        | cons d ds =>
          have hlen := clearFlag_map_len h2
          rw [findNode_cons] at hf
          cases hl2 : lookupChild next.map d with
          | none => rw [hl2] at hf; simp at hf
          | some w =>
            have : next.map ≠ [] := by
              intro hx
              rw [hx] at hl2
              simp [lookupChild] at hl2
            simp only [Bool.or_eq_true]
            right
            have hlen2 : next.map.length ≠ 0 := by
              intro hx
              exact this (List.length_eq_zero.1 hx)
            have hne3 : next2.map ≠ [] := by
              intro hx
              rw [hx] at hlen
              simp at hlen
              exact hlen2 hlen.symm
            simp [List.isEmpty_eq_false, hne3]

/-! ### Lemmas about the detaching second loop -/

theorem removeAt_nil (n : TrieNode) (i : Nat) : removeAt n [] i = some n := rfl

theorem removeAt_zero (n : TrieNode) (c : Char) (cs : List Char) :
    removeAt n (c :: cs) 0 = some (.mk (removeChild n.map c) n.end_of_word) := rfl

theorem removeAt_succ (n : TrieNode) (c : Char) (cs : List Char) (i : Nat) :
    removeAt n (c :: cs) (i + 1)
      = match lookupChild n.map c with
        | some next =>
          (match removeAt next cs i with
           | some next2 => some (.mk (updateChild n.map c next2) n.end_of_word)
           | none => none)
        | none => none := rfl

theorem removeChild_length_ge (l : List (Char × TrieNode)) (c : Char) :
    l.length ≤ (removeChild l c).length + 1 := by
  induction l with
  | nil => simp [removeChild]
  | cons p rest ih =>
    obtain ⟨c', t'⟩ := p
    by_cases hc : c' = c
    · subst hc; simp [removeChild]
    · simp [removeChild, hc]
      omega

theorem lookupChild_singleton {l : List (Char × TrieNode)} {c : Char} {t : TrieNode}
    (h : lookupChild l c = some t) (hlen : l.length ≤ 1) : l = [(c, t)] := by
  cases l with
  | nil => simp [lookupChild] at h
  | cons p rest =>
    obtain ⟨c', t'⟩ := p
    cases rest with
    | cons q qs => simp at hlen
    | nil =>
      by_cases hc : c' = c
      · subst hc
        simp [lookupChild] at h
        rw [h]
      · simp [lookupChild, hc] at h

theorem countChildren_nil : countChildren [] = 0 := by simp [countChildren]

theorem removeAt_eow {n n2 : TrieNode} {s : List Char} {i : Nat}
    (h : removeAt n s i = some n2) : n2.end_of_word = n.end_of_word := by
  cases s with
  | nil => rw [removeAt_nil] at h; injection h with h; rw [← h]
  | cons c cs =>
    cases i with
    | zero =>
      rw [removeAt_zero] at h
      injection h with h
      rw [← h, TrieNode.eow_mk]
    | succ i =>
      rw [removeAt_succ] at h
      cases hl : lookupChild n.map c with
      | none => rw [hl] at h; simp at h
      | some next =>
        rw [hl] at h
        simp only at h
        cases h2 : removeAt next cs i with
        | none => rw [h2] at h; simp at h
        | some next2 =>
          rw [h2] at h
          injection h with h
          rw [← h, TrieNode.eow_mk]

theorem removeAt_some {n m : TrieNode} {s : List Char} {i : Nat}
    (h : findNode n s = some m) (hi : i < s.length) :
    ∃ n2, removeAt n s i = some n2 := by
  induction s generalizing n i with
  | nil => simp at hi
  | cons c cs ih =>
    cases i with
    | zero => exact ⟨_, removeAt_zero n c cs⟩
    | succ i =>
      rw [findNode_cons] at h
      cases hl : lookupChild n.map c with
      | none => rw [hl] at h; simp at h
      | some next =>
        rw [hl] at h
        change findNode next cs = some m at h
        obtain ⟨n2, h2⟩ := ih h (by simpa using hi)
        rw [removeAt_succ, hl]
        simp only [h2]
        exact ⟨_, rfl⟩

theorem removeAt_wf {n n2 : TrieNode} {s : List Char} {i : Nat}
    (hwf : childrenWF n.map = true) (h : removeAt n s i = some n2) :
    childrenWF n2.map = true := by
  induction s generalizing n n2 i with
  | nil => rw [removeAt_nil] at h; injection h with h; rw [← h]; exact hwf
  | cons c cs ih =>
    cases i with
    | zero =>
      rw [removeAt_zero] at h
      injection h with h
      rw [← h, TrieNode.map_mk]
      exact childrenWF_removeChild hwf
    | succ i =>
      rw [removeAt_succ] at h
      cases hl : lookupChild n.map c with
      | none => rw [hl] at h; simp at h
      | some next =>
        rw [hl] at h
        simp only at h
        cases h2 : removeAt next cs i with
        | none => rw [h2] at h; simp at h
        | some next2 =>
          rw [h2] at h
          injection h with h
          rw [← h, TrieNode.map_mk]
          exact childrenWF_updateChild hwf
            (ih (childrenWF_mem hwf (lookupChild_mem hl)) h2)

theorem removeAt_break {n n2 : TrieNode} {s : List Char} {i : Nat}
    (hwf : childrenWF n.map = true) (h : removeAt n s i = some n2)
    (hi : i < s.length) : findNode n2 s = none := by
  induction s generalizing n n2 i with
  | nil => simp at hi
  | cons c cs ih =>
    cases i with
    | zero =>
      rw [removeAt_zero] at h
      injection h with h
      rw [← h, findNode_cons, TrieNode.map_mk,
        lookupChild_removeChild_self (keysNodup_of_childrenWF hwf)]
    | succ i =>
      rw [removeAt_succ] at h
      cases hl : lookupChild n.map c with
      | none => rw [hl] at h; simp at h
      | some next =>
        rw [hl] at h
        simp only at h
        cases h2 : removeAt next cs i with
        | none => rw [h2] at h; simp at h
        | some next2 =>
          rw [h2] at h
          injection h with h
          rw [← h, findNode_cons, TrieNode.map_mk,
            lookupChild_updateChild_self next2 hl]
          exact ih (childrenWF_mem hwf (lookupChild_mem hl)) h2 (by simpa using hi)

theorem removeAt_pruned_node {n n2 : TrieNode} {s : List Char} {i : Nat}
    (hp : prunedN n = true) (h : removeAt n s i = some n2)
    (hcut : ∃ p, findNode n (s.take i) = some p ∧
      (p.end_of_word = true ∨ 2 ≤ p.map.length)) :
    prunedN n2 = true := by
  induction s generalizing n n2 i with
  | nil => rw [removeAt_nil] at h; injection h with h; rw [← h]; exact hp
  | cons c cs ih =>
    rw [prunedN, Bool.and_eq_true] at hp
    cases i with
    | zero =>
      rw [removeAt_zero] at h
      injection h with h
      obtain ⟨p, hp2, hcut⟩ := hcut
      rw [List.take_zero, findNode_nil] at hp2
      injection hp2 with hp2
      subst hp2
      rw [← h, prunedN, Bool.and_eq_true, TrieNode.map_mk, TrieNode.eow_mk]
      refine ⟨?_, prunedChildren_removeChild hp.2⟩
      rcases hcut with hcut | hcut
      · simp [hcut]
      · have := removeChild_length_ge n.map c
        have hne : removeChild n.map c ≠ [] := by
          intro hx
          rw [hx] at this
          simp at this
          omega
        simp [List.isEmpty_eq_false, hne]
    | succ i =>
      rw [removeAt_succ] at h
      cases hl : lookupChild n.map c with
      | none => rw [hl] at h; simp at h
      | some next =>
        rw [hl] at h
        simp only at h
        cases h2 : removeAt next cs i with
        | none => rw [h2] at h; simp at h
        | some next2 =>
          rw [h2] at h
          injection h with h
          obtain ⟨p, hp2, hcut⟩ := hcut
          rw [List.take_succ_cons, findNode_cons, hl] at hp2
          change findNode next (cs.take i) = some p at hp2
          have hnext2 : prunedN next2 = true :=
            ih (prunedChildren_mem hp.2 (lookupChild_mem hl)) h2 ⟨p, hp2, hcut⟩
          rw [← h, prunedN, Bool.and_eq_true, TrieNode.map_mk, TrieNode.eow_mk]
          refine ⟨?_, prunedChildren_updateChild hp.2 hnext2⟩
          have hnonempty : n.map ≠ [] := by
            intro hx
            rw [hx] at hl
            simp [lookupChild] at hl
          have hlen := updateChild_length n.map c next2
          have hne : updateChild n.map c next2 ≠ [] := by
            intro hx
            rw [hx] at hlen
            simp at hlen
            exact hnonempty (List.length_eq_zero.1 hlen.symm)
          simp [List.isEmpty_eq_false, hne]

theorem removeAt_pruned_root {root root2 : TrieNode} {s : List Char} {idx : Nat}
    (hp : prunedChildren root.map = true) (h : removeAt root s idx = some root2)
    (hcut : idx = 0 ∨ ∃ p, findNode root (s.take idx) = some p ∧
      (p.end_of_word = true ∨ 2 ≤ p.map.length)) :
    prunedChildren root2.map = true := by
  cases s with
  | nil => rw [removeAt_nil] at h; injection h with h; rw [← h]; exact hp
  | cons c cs =>
    cases idx with
    | zero =>
      rw [removeAt_zero] at h
      injection h with h
      rw [← h, TrieNode.map_mk]
      exact prunedChildren_removeChild hp
    | succ i =>
      rcases hcut with hcut | hcut
      · simp at hcut
      rw [removeAt_succ] at h
      cases hl : lookupChild root.map c with
      | none => rw [hl] at h; simp at h
      | some next =>
        rw [hl] at h
        simp only at h
        cases h2 : removeAt next cs i with
        | none => rw [h2] at h; simp at h
        | some next2 =>
          rw [h2] at h
          injection h with h
          obtain ⟨p, hp2, hcut⟩ := hcut
          rw [List.take_succ_cons, findNode_cons, hl] at hp2
          change findNode next (cs.take i) = some p at hp2
          have hnext2 : prunedN next2 = true :=
            removeAt_pruned_node (prunedChildren_mem hp (lookupChild_mem hl)) h2 ⟨p, hp2, hcut⟩
          rw [← h, TrieNode.map_mk]
          exact prunedChildren_updateChild hp hnext2

theorem chainF_count {n : TrieNode} {s' : List Char} (h : ChainF n s') :
    countTerminals n = 1 := by
  induction s' generalizing n with
  | nil =>
    obtain ⟨m, hm, _, _, hend⟩ := h 0 (by simp)
    rw [List.take_nil, findNode_nil] at hm
    injection hm with hm
    subst hm
    obtain ⟨he, hmap⟩ := hend rfl
    rw [countTerminals_def, he, hmap, countChildren_nil]
    simp
  | cons c cs ih =>
    obtain ⟨m0, hm0, hlen0, heow0, _⟩ := h 0 (by simp)
    rw [List.take_zero, findNode_nil] at hm0
    injection hm0 with hm0
    subst hm0
    obtain ⟨m1, hm1, _, _, _⟩ := h 1 (by simp)
    rw [List.take_succ_cons, List.take_zero, findNode_cons] at hm1
    cases hl : lookupChild n.map c with
    | none => rw [hl] at hm1; simp at hm1
    | some t =>
      rw [hl] at hm1
      change findNode t [] = some m1 at hm1
      rw [findNode_nil] at hm1
      injection hm1 with hm1
      subst hm1
      have hsing : n.map = [(c, t)] := lookupChild_singleton hl hlen0
      have hchain : ChainF t cs := by
        intro k hk
        obtain ⟨m, hm, h1, h2, h3⟩ := h (k + 1) (by simpa using hk)
        rw [List.take_succ_cons, findNode_cons, hl] at hm
        change findNode t (cs.take k) = some m at hm
        refine ⟨m, hm, h1, ?_, ?_⟩
        · intro hlt
          exact h2 (by simpa using hlt)
        · intro heq
          exact h3 (by simpa using heq)
      rw [countTerminals_def, heow0 (by simp), hsing, countChildren_cons, countChildren_nil,
        ih hchain]
      simp

theorem removeAt_count {n n2 q : TrieNode} {s : List Char} {i : Nat}
    (h : removeAt n s i = some n2) (hi : i < s.length)
    (hq : findNode n (s.take (i + 1)) = some q)
    (hchain : ChainF q (s.drop (i + 1))) :
    countTerminals n2 + 1 = countTerminals n := by
  induction s generalizing n n2 i with
  | nil => simp at hi
  | cons c cs ih =>
    cases i with
    | zero =>
      rw [removeAt_zero] at h
      injection h with h
      rw [List.take_succ_cons, List.take_zero, findNode_cons] at hq
      cases hl : lookupChild n.map c with
      | none => rw [hl] at hq; simp at hq
      | some t =>
        rw [hl] at hq
        change findNode t [] = some q at hq
        rw [findNode_nil] at hq
        injection hq with hq
        subst hq
        have hcount : countTerminals t = 1 := chainF_count (by simpa using hchain)
        have hcc := countChildren_removeChild hl
        rw [← h, countTerminals_mk, countTerminals_def n]
        omega
    | succ i =>
      rw [removeAt_succ] at h
      cases hl : lookupChild n.map c with
      | none => rw [hl] at h; simp at h
      | some next =>
        rw [hl] at h
        simp only at h
        cases h2 : removeAt next cs i with
        | none => rw [h2] at h; simp at h
        | some next2 =>
          rw [h2] at h
          injection h with h
          rw [List.take_succ_cons, findNode_cons, hl] at hq
          change findNode next (cs.take (i + 1)) = some q at hq
          have hic := ih h2 (by simpa using hi) hq (by simpa using hchain)
          have hcc := countChildren_updateChild (l := n.map) next2 hl
          rw [← h, countTerminals_mk, countTerminals_def n]
          omega

/-! ### Lemmas about the first loop of `remove` -/

theorem removeWalk_nil (n : TrieNode) (i : Nat) (ri : Option Nat) :
    removeWalk n [] i ri = some (n, ri) := rfl

theorem removeWalk_cons (n : TrieNode) (c : Char) (cs : List Char) (i : Nat) (ri : Option Nat) :
    removeWalk n (c :: cs) i ri
      = match lookupChild n.map c with
        | some next =>
          removeWalk next cs (i + 1)
            (if next.map.length > 1 then none
             else if (if n.end_of_word then none else ri) = none then some i
             else (if n.end_of_word then none else ri))
        | none => none := rfl

theorem removeWalk_findNode {cs : List Char} :
    ∀ {n target : TrieNode} {i : Nat} {ri rf : Option Nat},
    removeWalk n cs i ri = some (target, rf) → findNode n cs = some target := by
  induction cs with
  | nil =>
    intro n target i ri rf h
    rw [removeWalk_nil] at h
    injection h with h
    rw [findNode_nil]
    rw [Prod.mk.injEq] at h
    rw [h.1]
  | cons c cs ih =>
    intro n target i ri rf h
    rw [removeWalk_cons] at h
    cases hl : lookupChild n.map c with
    | none => rw [hl] at h; simp at h
    | some next =>
      rw [hl] at h
      simp only at h
      rw [findNode_cons, hl]
      exact ih h

theorem removeWalk_of_findNode {cs : List Char} :
    ∀ {n m : TrieNode} (i : Nat) (ri : Option Nat),
    findNode n cs = some m → ∃ rf, removeWalk n cs i ri = some (m, rf) := by
  induction cs with
  | nil =>
    intro n m i ri h
    rw [findNode_nil] at h
    injection h with h
    subst h
    exact ⟨ri, removeWalk_nil n i ri⟩
  | cons c cs ih =>
    intro n m i ri h
    rw [findNode_cons] at h
    cases hl : lookupChild n.map c with
    | none => rw [hl] at h; simp at h
    | some next =>
      rw [hl] at h
      change findNode next cs = some m at h
      rw [removeWalk_cons, hl]
      simp only
      exact ih _ _ h

theorem removeWalk_none {cs : List Char} :
    ∀ {n : TrieNode} {i : Nat} {ri : Option Nat},
    findNode n cs = none → removeWalk n cs i ri = none := by
  induction cs with
  | nil =>
    intro n i ri h
    rw [findNode_nil] at h
    simp at h
  | cons c cs ih =>
    intro n i ri h
    rw [findNode_cons] at h
    rw [removeWalk_cons]
    cases hl : lookupChild n.map c with
    | none => simp
    | some next =>
      rw [hl] at h
      change findNode next cs = none at h
      simp only
      exact ih h

/-! ### Lemmas about the first loop of `remove_pref` -/

theorem removePrefWalk_nil (n : TrieNode) (i : Nat) (ri : Option Nat) (last : Nat) :
    removePrefWalk n [] i ri last = some ri := rfl

theorem removePrefWalk_cons (n : TrieNode) (c : Char) (cs : List Char) (i : Nat)
    (ri : Option Nat) (last : Nat) :
    removePrefWalk n (c :: cs) i ri last
      = match lookupChild n.map c with
        | some next =>
          removePrefWalk next cs (i + 1)
            (if next.map.length > 1 ∧ i ≠ last then none
             else if ri = none then some i else ri) last
        | none => none := rfl

theorem removePrefWalk_some {cs : List Char} :
    ∀ {n : TrieNode} {i : Nat} {ri rf : Option Nat} {last : Nat},
    removePrefWalk n cs i ri last = some rf → ∃ m, findNode n cs = some m := by
  induction cs with
  | nil =>
    intro n i ri rf last _
    exact ⟨n, findNode_nil n⟩
  | cons c cs ih =>
    intro n i ri rf last h
    rw [removePrefWalk_cons] at h
    cases hl : lookupChild n.map c with
    | none => rw [hl] at h; simp at h
    | some next =>
      rw [hl] at h
      simp only at h
      rw [findNode_cons, hl]
      exact ih h

theorem removePrefWalk_none {cs : List Char} :
    ∀ {n : TrieNode} {i : Nat} {ri : Option Nat} {last : Nat},
    findNode n cs = none → removePrefWalk n cs i ri last = none := by
  induction cs with
  | nil =>
    intro n i ri last h
    rw [findNode_nil] at h
    simp at h
  | cons c cs ih =>
    intro n i ri last h
    rw [findNode_cons] at h
    rw [removePrefWalk_cons]
    cases hl : lookupChild n.map c with
    | none => simp
    | some next =>
      rw [hl] at h
      change findNode next cs = none at h
      simp only
      exact ih h

theorem take_split_succ {s : List Char} {i : Nat} {c : Char} {cs : List Char}
    (h : s.take i ++ c :: cs = s) (hi : i ≤ s.length) :
    s.take (i + 1) = s.take i ++ [c] ∧ s.take (i + 1) ++ cs = s ∧ i < s.length := by
  have hlen : (s.take i).length = i := by
    rw [List.length_take]
    omega
  have hdrop : c :: cs = s.drop i := by
    have h2 := h.trans (List.take_append_drop i s).symm
    exact List.append_cancel_left h2
  have hlt : i < s.length := by
    have := congrArg List.length h
    simp [hlen] at this
    omega
  have htake1 : s.take (i + 1) = s.take i ++ [c] := by
    rw [List.take_add, ← hdrop]
    simp
  refine ⟨htake1, ?_, hlt⟩
  rw [htake1, List.append_assoc, List.singleton_append, h]

theorem removeWalk_inv (root : TrieNode) (s : List Char) :
    ∀ (cs : List Char) (i : Nat) (ri : Option Nat) (m target : TrieNode) (rf : Option Nat),
    s.take i ++ cs = s → i ≤ s.length → findNode root (s.take i) = some m →
    WalkInv root s i ri →
    removeWalk m cs i ri = some (target, rf) →
    WalkInv root s s.length rf ∧ findNode root s = some target := by
  intro cs
  induction cs with
  | nil =>
    intro i ri m target rf hsplit hile hfind hInv hwalk
    rw [removeWalk_nil] at hwalk
    injection hwalk with hwalk
    rw [Prod.mk.injEq] at hwalk
    obtain ⟨h1, h2⟩ := hwalk
    subst h1
    subst h2
    simp only [List.append_nil] at hsplit
    have hlen : (s.take i).length = s.length := by rw [hsplit]
    rw [List.length_take, Nat.min_eq_left hile] at hlen
    subst hlen
    rw [hsplit] at hfind
    exact ⟨hInv, hfind⟩
  | cons c cs ih =>
    intro i ri m target rf hsplit hile hfind hInv hwalk
    obtain ⟨htake1, hsplit2, hlt⟩ := take_split_succ hsplit hile
    rw [removeWalk_cons] at hwalk
    cases hl : lookupChild m.map c with
    | none => rw [hl] at hwalk; simp at hwalk
    | some next =>
      rw [hl] at hwalk
      simp only at hwalk
      have hnext : findNode root (s.take (i + 1)) = some next := by
        rw [htake1, findNode_append, hfind]
        simp only [Option.some_bind]
        rw [findNode_cons, hl]
        rfl
      by_cases hb : next.map.length > 1
      · rw [if_pos hb] at hwalk
        refine ih (i + 1) none next target rf hsplit2 (by omega) hnext ?_ hwalk
        exact Or.inr ⟨next, hnext, by omega⟩
      · rw [if_neg hb] at hwalk
        cases he : m.end_of_word with
        | true =>
          simp only [he, if_true] at hwalk
          refine ih (i + 1) (some i) next target rf hsplit2 (by omega) hnext ?_ hwalk
          refine ⟨by omega, Or.inr ⟨m, hfind, Or.inl he⟩, ?_, ?_⟩
          · intro j hj1 hj2
            omega
          · intro j hj1 hj2
            have hj : j = i + 1 := by omega
            subst hj
            exact ⟨next, hnext, by omega⟩
        | false =>
          simp only [he, Bool.false_eq_true, if_false] at hwalk
          cases ri with
          | none =>
            simp at hwalk
            refine ih (i + 1) (some i) next target rf hsplit2 (by omega) hnext ?_ hwalk
            have ha : i = 0 ∨ ∃ p, findNode root (s.take i) = some p ∧
                (p.end_of_word = true ∨ 2 ≤ p.map.length) := by
              rcases hInv with hInv | hInv
              · exact Or.inl hInv
              · obtain ⟨m2, hm2, hm3⟩ := hInv
                rw [hfind] at hm2
                injection hm2 with hm2
                subst hm2
                exact Or.inr ⟨m, hfind, Or.inr hm3⟩
            refine ⟨by omega, ha, ?_, ?_⟩
            · intro j hj1 hj2
              omega
            · intro j hj1 hj2
              have hj : j = i + 1 := by omega
              subst hj
              exact ⟨next, hnext, by omega⟩
          | some idx =>
            simp at hwalk
            obtain ⟨hlt2, ha, hbb, hcc⟩ := hInv
            refine ih (i + 1) (some idx) next target rf hsplit2 (by omega) hnext ?_ hwalk
            refine ⟨by omega, ha, ?_, ?_⟩
            · intro j hj1 hj2
              by_cases hji : j < i
              · exact hbb j hj1 hji
              · have hj : j = i := by omega
                subst hj
                exact ⟨m, hfind, he⟩
            · intro j hj1 hj2
              by_cases hji : j ≤ i
              · exact hcc j hj1 hji
              · have hj : j = i + 1 := by omega
                subst hj
                exact ⟨next, hnext, by omega⟩

theorem removePrefWalk_inv (root : TrieNode) (s : List Char) (last : Nat) :
    ∀ (cs : List Char) (i : Nat) (ri : Option Nat) (m : TrieNode) (rf : Option Nat),
    s.take i ++ cs = s → i ≤ s.length → findNode root (s.take i) = some m →
    WalkInvP root s i ri →
    removePrefWalk m cs i ri last = some rf →
    WalkInvP root s s.length rf := by
  intro cs
  induction cs with
  | nil =>
    intro i ri m rf hsplit hile hfind hInv hwalk
    rw [removePrefWalk_nil] at hwalk
    injection hwalk with hwalk
    subst hwalk
    simp only [List.append_nil] at hsplit
    have hlen : (s.take i).length = s.length := by rw [hsplit]
    rw [List.length_take, Nat.min_eq_left hile] at hlen
    subst hlen
    exact hInv
  | cons c cs ih =>
    intro i ri m rf hsplit hile hfind hInv hwalk
    obtain ⟨htake1, hsplit2, hlt⟩ := take_split_succ hsplit hile
    rw [removePrefWalk_cons] at hwalk
    cases hl : lookupChild m.map c with
    | none => rw [hl] at hwalk; simp at hwalk
    | some next =>
      rw [hl] at hwalk
      simp only at hwalk
      have hnext : findNode root (s.take (i + 1)) = some next := by
        rw [htake1, findNode_append, hfind]
        simp only [Option.some_bind]
        rw [findNode_cons, hl]
        rfl
      by_cases hb : next.map.length > 1 ∧ i ≠ last
      · rw [if_pos hb] at hwalk
        refine ih (i + 1) none next rf hsplit2 (by omega) hnext ?_ hwalk
        exact Or.inr ⟨next, hnext, by omega⟩
      · rw [if_neg hb] at hwalk
        cases ri with
        | none =>
          simp at hwalk
          refine ih (i + 1) (some i) next rf hsplit2 (by omega) hnext ?_ hwalk
          have ha : i = 0 ∨ ∃ p, findNode root (s.take i) = some p ∧ 2 ≤ p.map.length := by
            rcases hInv with hInv | hInv
            · exact Or.inl hInv
            · obtain ⟨m2, hm2, hm3⟩ := hInv
              rw [hfind] at hm2
              injection hm2 with hm2
              subst hm2
              exact Or.inr ⟨m, hfind, hm3⟩
          exact ⟨by omega, ha⟩
        | some idx =>
          simp at hwalk
          obtain ⟨hlt2, ha⟩ := hInv
          refine ih (i + 1) (some idx) next rf hsplit2 (by omega) hnext ?_ hwalk
          exact ⟨by omega, ha⟩

theorem walkInv_chainF {root target q : TrieNode} {s : List Char} {idx : Nat}
    (hInv : WalkInv root s s.length (some idx))
    (hfind : findNode root s = some target)
    (hq : findNode root (s.take (idx + 1)) = some q)
    (he : target.end_of_word = true) (hmap : target.map = []) :
    ChainF q (s.drop (idx + 1)) := by
  obtain ⟨hlt, _, hb, hc⟩ := hInv
  intro k hk
  rw [List.length_drop] at hk
  have hj1 : idx < idx + 1 + k := by omega
  have hj2 : idx + 1 + k ≤ s.length := by omega
  obtain ⟨mj, hmj, hlenj⟩ := hc (idx + 1 + k) hj1 hj2
  have htake : s.take (idx + 1 + k) = s.take (idx + 1) ++ (s.drop (idx + 1)).take k :=
    List.take_add s (idx + 1) k
  have hmj2 : findNode q ((s.drop (idx + 1)).take k) = some mj := by
    rw [htake, findNode_append, hq] at hmj
    simpa using hmj
  refine ⟨mj, hmj2, hlenj, ?_, ?_⟩
  · intro hklt
    rw [List.length_drop] at hklt
    obtain ⟨mb, hmb, hmb2⟩ := hb (idx + 1 + k) hj1 (by omega)
    rw [hmb] at hmj
    injection hmj with hmj
    subst hmj
    exact hmb2
  · intro hkeq
    rw [List.length_drop] at hkeq
    have hje : idx + 1 + k = s.length := by omega
    rw [hje, List.take_length] at hmj
    rw [hfind] at hmj
    injection hmj with hmj
    subst hmj
    exact ⟨he, hmap⟩

/-! ### Correctness of the iterative counting pass of `size` -/

theorem sizeLoop_nil (acc : Nat) : sizeLoop [] acc = acc := by
  simp [sizeLoop]

theorem sizeLoop_cons (n : TrieNode) (stack : List TrieNode) (acc : Nat) :
    sizeLoop (n :: stack) acc
      = sizeLoop (nonEmptyChildNodes n.map ++ stack)
          (acc + (if n.end_of_word then 1 else 0) + emptyChildCount n.map) := by
  cases n
  simp [sizeLoop, TrieNode.map_mk, TrieNode.eow_mk]

theorem sumCT_append (a b : List TrieNode) : sumCT (a ++ b) = sumCT a + sumCT b := by
  induction a with
  | nil => simp [sumCT]
  | cons x xs ih => simp [sumCT, ih]; omega

theorem nonEmptyChildNodes_pruned {l : List (Char × TrieNode)}
    (hp : prunedChildren l = true) :
    ∀ x ∈ nonEmptyChildNodes l, prunedN x = true := by
  induction l with
  | nil => intro x hx; simp [nonEmptyChildNodes] at hx
  | cons p rest ih =>
    obtain ⟨c, t⟩ := p
    rw [prunedChildren_cons, Bool.and_eq_true, Bool.and_eq_true] at hp
    intro x hx
    simp only [nonEmptyChildNodes] at hx
    by_cases ht : t.map.isEmpty
    · rw [if_pos ht] at hx
      exact ih hp.2.2 x hx
    · rw [if_neg ht] at hx
      rcases List.mem_cons.1 hx with h1 | h1
      · subst h1
        rw [prunedN, Bool.and_eq_true]
        exact ⟨by simp [Bool.or_eq_true]; right; simpa using ht, hp.2.1⟩
      · exact ih hp.2.2 x h1

theorem emptyChildCount_nonEmpty {l : List (Char × TrieNode)}
    (hp : prunedChildren l = true) :
    emptyChildCount l + sumCT (nonEmptyChildNodes l) = countChildren l := by
  induction l with
  | nil => simp [emptyChildCount, nonEmptyChildNodes, sumCT, countChildren_nil]
  | cons p rest ih =>
    obtain ⟨c, t⟩ := p
    rw [prunedChildren_cons, Bool.and_eq_true, Bool.and_eq_true] at hp
    rw [countChildren_cons]
    simp only [emptyChildCount, nonEmptyChildNodes]
    by_cases ht : t.map.isEmpty
    · rw [if_pos ht, if_pos ht]
      have hmap : t.map = [] := List.isEmpty_iff.1 ht
      have heow : t.end_of_word = true := by
        rcases Bool.or_eq_true_iff.1 hp.1 with h1 | h1
        · exact h1
        · rw [ht] at h1; simp at h1
      have hct : countTerminals t = 1 := by
        rw [countTerminals_def, heow, hmap, countChildren_nil]
        simp
      rw [hct]
      have := ih hp.2.2
      omega
    · rw [if_neg ht, if_neg ht]
      simp only [sumCT]
      have := ih hp.2.2
      omega

theorem sizeLoop_correct :
    ∀ (stack : List TrieNode) (acc : Nat), (∀ x ∈ stack, prunedN x = true) →
    sizeLoop stack acc = acc + sumCT stack := by
  intro stack acc h
  induction stack, acc using sizeLoop.induct with
  | case1 acc => simp [sizeLoop_nil, sumCT]
  | case2 m e stack acc ih =>
    have hme : prunedN (TrieNode.mk m e) = true := h _ (by simp)
    rw [prunedN, Bool.and_eq_true, TrieNode.map_mk] at hme
    have hstack : ∀ x ∈ stack, prunedN x = true := fun x hx => h x (by simp [hx])
    have hpush : ∀ x ∈ nonEmptyChildNodes m ++ stack, prunedN x = true := by
      intro x hx
      rcases List.mem_append.1 hx with h1 | h1
      · exact nonEmptyChildNodes_pruned hme.2 x h1
      · exact hstack x h1
    rw [sizeLoop_cons, TrieNode.map_mk, TrieNode.eow_mk]
    simp only [dite_eq_ite] at ih
    rw [ih hpush]
    simp only [sumCT]
    rw [sumCT_append, countTerminals_mk, ← emptyChildCount_nonEmpty hme.2]
    omega

/-! ### The representation invariant is preserved by every operation -/

theorem trieInv_new : TrieInv Trie.new := by
  refine ⟨by simp [Trie.new, TrieNode.map_mk, childrenWF], by simp [Trie.new, TrieNode.eow_mk],
    by simp [Trie.new, TrieNode.map_mk, prunedChildren], ?_⟩
  intro k hk
  simp only [Trie.new] at hk
  injection hk with hk
  subst hk
  show (0 : Nat) = countTerminals (TrieNode.mk [] false)
  rw [countTerminals_mk, countChildren_nil]
  simp

theorem trieInv_insert {t : Trie} (s : List Char) (h : TrieInv t) : TrieInv (t.insert s).1 := by
  obtain ⟨hwf, he, hp, hc⟩ := h
  by_cases hs : s = []
  · simp only [Trie.insert, if_pos hs]
    exact ⟨hwf, he, hp, hc⟩
  · simp only [Trie.insert, if_neg hs]
    cases s with
    | nil => exact absurd rfl hs
    | cons c cs =>
      refine ⟨insGo_wf _ hwf, ?_, insGo_prunedChildren c cs hp, ?_⟩
      · rw [insGo_eow, he]
      · intro k hk
        simp only at hk
        cases hb : (insGo t.root (c :: cs)).2 with
        | false =>
          rw [hb] at hk
          simp only [Bool.false_eq_true, if_false] at hk
          have hcv := hc k hk
          have := insGo_count t.root (c :: cs)
          rw [hb] at this
          simp at this
          rw [this, ← hcv]
        | true =>
          rw [hb] at hk
          simp only [if_true] at hk
          have := insGo_count t.root (c :: cs)
          rw [hb] at this
          simp at this
          rw [this]
          cases hst : t.stored_size with
          | none => rw [hst] at hk; simp [editSize] at hk
          | some k0 =>
            rw [hst] at hk
            simp [editSize] at hk
            have hcv := hc k0 hst
            omega

theorem trieInv_clear {t : Trie} (h : TrieInv t) : TrieInv t.clear := by
  obtain ⟨_, he, _, _⟩ := h
  refine ⟨by simp [Trie.clear, TrieNode.map_mk, childrenWF],
    by simp [Trie.clear, TrieNode.eow_mk, he], by simp [Trie.clear, TrieNode.map_mk, prunedChildren], ?_⟩
  intro k hk
  simp only [Trie.clear] at hk
  injection hk with hk
  subst hk
  show (0 : Nat) = countTerminals (TrieNode.mk [] t.root.end_of_word)
  rw [countTerminals_mk, countChildren_nil, he]
  simp

theorem trieInv_size {t : Trie} (h : TrieInv t) : TrieInv (t.size).2 := by
  obtain ⟨hwf, he, hp, hc⟩ := h
  cases hst : t.stored_size with
  | some k =>
    simp only [Trie.size, hst]
    exact ⟨hwf, he, hp, hc⟩
  | none =>
    simp only [Trie.size, hst]
    refine ⟨hwf, he, hp, ?_⟩
    intro k hk
    simp only at hk
    injection hk with hk
    subst hk
    have hmem : ∀ x ∈ t.root.map.map Prod.snd, prunedN x = true := by
      intro x hx
      rw [List.mem_map] at hx
      obtain ⟨⟨cx, tx⟩, hx1, hx2⟩ := hx
      subst hx2
      exact prunedChildren_mem hp hx1
    rw [sizeLoop_correct _ 0 hmem]
    rw [countTerminals_def, he]
    simp only [Bool.false_eq_true, if_false, Nat.zero_add]
    clear hmem hc hwf hp he hst
    induction t.root.map with
    | nil => simp [sumCT, countChildren_nil]
    | cons p rest ih =>
      obtain ⟨cx, tx⟩ := p
      rw [countChildren_cons]
      simp only [List.map_cons, sumCT]
      omega

theorem trieInv_remove {t t2 : Trie} {s : List Char} {b : Bool}
    (h : TrieInv t) (hr : t.remove s = some (t2, b)) : TrieInv t2 := by
  obtain ⟨hwf, he, hp, hc⟩ := h
  simp only [Trie.remove] at hr
  by_cases hs : s = []
  · rw [if_pos hs] at hr
    injection hr with hr
    rw [Prod.mk.injEq] at hr
    rw [← hr.1]
    exact ⟨hwf, he, hp, hc⟩
  · rw [if_neg hs] at hr
    cases hw : removeWalk t.root s 0 none with
    | none =>
      rw [hw] at hr
      simp only at hr
      injection hr with hr
      rw [Prod.mk.injEq] at hr
      rw [← hr.1]
      exact ⟨hwf, he, hp, hc⟩
    | some pr =>
      obtain ⟨target, ri⟩ := pr
      rw [hw] at hr
      simp only at hr
      have hfind : findNode t.root s = some target := removeWalk_findNode hw
      cases hte : target.end_of_word with
      | false =>
        rw [if_pos hte] at hr
        injection hr with hr
        rw [Prod.mk.injEq] at hr
        rw [← hr.1]
        exact ⟨hwf, he, hp, hc⟩
      | true =>
        rw [if_neg (by simp [hte])] at hr
        have hterm : terminalIn t.root s = true := by
          rw [terminalIn, hfind]
          exact hte
        cases htm : target.map.isEmpty with
        | false =>
          rw [if_pos htm] at hr
          obtain ⟨root2, hcf⟩ := clearFlagAt_some hfind
          rw [hcf] at hr
          simp only at hr
          injection hr with hr
          rw [Prod.mk.injEq] at hr
          rw [← hr.1]
          have hcount := clearFlag_count hcf hterm
          refine ⟨clearFlag_wf hwf hcf, ?_, clearFlag_pruned hp hcf hfind htm, ?_⟩
          · cases s with
            | nil => exact absurd rfl hs
            | cons c cs => rw [clearFlag_eow hcf, he]
          · intro k hk
            simp only at hk
            cases hst : t.stored_size with
            | none => rw [hst] at hk; simp [editSize] at hk
            | some k0 =>
              rw [hst] at hk
              have hcv := hc k0 hst
              have hk0 : k0 ≠ 0 := by omega
              simp only [editSize, Bool.false_eq_true, if_false, if_pos hk0] at hk
              injection hk with hk
              show k = countTerminals root2
              omega
        | true =>
          rw [if_neg (by simp [htm])] at hr
          cases ri with
          | none => simp at hr
          | some idx =>
            simp only at hr
            cases hra : removeAt t.root s idx with
            | none => rw [hra] at hr; simp at hr
            | some root2 =>
              rw [hra] at hr
              simp only at hr
              injection hr with hr
              rw [Prod.mk.injEq] at hr
              rw [← hr.1]
              have hW := removeWalk_inv t.root s s 0 none t.root target (some idx)
                (by simp) (by omega) (by rw [List.take_zero, findNode_nil]) (Or.inl rfl) hw
              obtain ⟨hWI, hfind2⟩ := hW
              obtain ⟨hlt, ha, hbb, hcc⟩ := hWI
              have hmap : target.map = [] := List.isEmpty_iff.1 htm
              obtain ⟨q, hq⟩ := findNode_take_of_some hfind (idx + 1)
              have hchain := walkInv_chainF ⟨hlt, ha, hbb, hcc⟩ hfind hq hte hmap
              have hcount := removeAt_count hra hlt hq hchain
              refine ⟨removeAt_wf hwf hra, by rw [removeAt_eow hra, he],
                removeAt_pruned_root hp hra ha, ?_⟩
              intro k hk
              simp only at hk
              cases hst : t.stored_size with
              | none => rw [hst] at hk; simp [editSize] at hk
              | some k0 =>
                rw [hst] at hk
                have hcv := hc k0 hst
                have hk0 : k0 ≠ 0 := by omega
                simp only [editSize, Bool.false_eq_true, if_false, if_pos hk0] at hk
                injection hk with hk
                show k = countTerminals root2
                omega

theorem trieInv_removePref {t t2 : Trie} {s : List Char} {b : Bool}
    (h : TrieInv t) (hr : t.removePref s = some (t2, b)) : TrieInv t2 := by
  obtain ⟨hwf, he, hp, hc⟩ := h
  cases s with
  | nil =>
    simp only [Trie.removePref] at hr
    injection hr with hr
    rw [Prod.mk.injEq] at hr
    rw [← hr.1]
    exact ⟨hwf, he, hp, hc⟩
  | cons c cs =>
    simp only [Trie.removePref] at hr
    by_cases hu : utf8Len (c :: cs) = 1
    · rw [if_pos hu] at hr
      injection hr with hr
      rw [Prod.mk.injEq] at hr
      rw [← hr.1]
      exact ⟨by rw [TrieNode.map_mk]; exact childrenWF_removeChild hwf,
        by rw [TrieNode.eow_mk]; exact he,
        by rw [TrieNode.map_mk]; exact prunedChildren_removeChild hp,
        by intro k hk; simp at hk⟩
    · rw [if_neg hu] at hr
      cases hw : removePrefWalk t.root (c :: cs) 0 none (utf8Len (c :: cs) - 1) with
      | none =>
        rw [hw] at hr
        simp only at hr
        injection hr with hr
        rw [Prod.mk.injEq] at hr
        rw [← hr.1]
        exact ⟨hwf, he, hp, hc⟩
      | some rf =>
        rw [hw] at hr
        cases rf with
        | none => simp at hr
        | some idx =>
          simp only at hr
          cases hra : removeAt t.root (c :: cs) idx with
          | none => rw [hra] at hr; simp at hr
          | some root2 =>
            rw [hra] at hr
            simp only at hr
            injection hr with hr
            rw [Prod.mk.injEq] at hr
            rw [← hr.1]
            have hWP := removePrefWalk_inv t.root (c :: cs) (utf8Len (c :: cs) - 1)
              (c :: cs) 0 none t.root (some idx)
              (by simp) (by omega) (by rw [List.take_zero, findNode_nil]) (Or.inl rfl) hw
            obtain ⟨hlt, ha⟩ := hWP
            have ha2 : idx = 0 ∨ ∃ p, findNode t.root ((c :: cs).take idx) = some p ∧
                (p.end_of_word = true ∨ 2 ≤ p.map.length) := by
              rcases ha with ha | ⟨p, hp1, hp2⟩
              · exact Or.inl ha
              · exact Or.inr ⟨p, hp1, Or.inr hp2⟩
            refine ⟨removeAt_wf hwf hra, by rw [removeAt_eow hra, he],
              removeAt_pruned_root hp hra ha2, ?_⟩
            intro k hk
            simp at hk

theorem trieInv_reachable {t : Trie} (h : Reachable t) : TrieInv t := by
  induction h with
  | new => exact trieInv_new
  | insert s _ ih => exact trieInv_insert s ih
  | remove s _ hr ih => exact trieInv_remove ih hr
  | removePref s _ hr ih => exact trieInv_removePref ih hr
  | clear _ ih => exact trieInv_clear ih
  | size _ ih => exact trieInv_size ih

/-! ### Membership characterization of `walk_nodes` -/

theorem TrieNode.sizeOf_map_lt (n : TrieNode) : sizeOf n.map < sizeOf n := by
  cases n with
  | mk m e =>
    rw [TrieNode.map_mk]
    simp_arith

theorem walkChildren_mem_list :
    ∀ (l : List (Char × TrieNode)),
    (∀ (c : Char) (t : TrieNode), (c, t) ∈ l → ∀ (pre' w' : List Char),
      (w' ∈ walkChildren pre' t.map ↔
        ∃ suf, suf ≠ [] ∧ w' = pre' ++ suf ∧ terminalIn t suf = true)) →
    ∀ (pre w : List Char),
    (w ∈ walkChildren pre l ↔
      ∃ c t, (c, t) ∈ l ∧ ∃ suf, w = pre ++ c :: suf ∧ terminalIn t suf = true) := by
  intro l
  induction l with
  | nil =>
    intro _ pre w
    simp [walkChildren_nil]
  | cons p rest ih =>
    intro hmem pre w
    obtain ⟨c, t⟩ := p
    rw [walkChildren_cons, walkChildren_guard]
    have hhead := hmem c t (by simp)
    have htail := ih (fun c' t' hct' => hmem c' t' (List.mem_cons_of_mem _ hct')) pre w
    constructor
    · intro hw
      rcases List.mem_append.1 hw with hw | hw
      · rcases List.mem_append.1 hw with hw | hw
        · by_cases hteow : t.end_of_word = true
          · rw [if_pos hteow] at hw
            simp at hw
            subst hw
            exact ⟨c, t, by simp, [], by simp, by rw [terminalIn_nil]; exact hteow⟩
          · rw [if_neg hteow] at hw
            simp at hw
        · obtain ⟨suf, hne, hws, hterm⟩ := (hhead (pre ++ [c]) w).1 hw
          exact ⟨c, t, by simp, suf, by simp [hws], hterm⟩
      · obtain ⟨c', t', hct', suf, hws, hterm⟩ := htail.1 hw
        exact ⟨c', t', by simp [hct'], suf, hws, hterm⟩
    · rintro ⟨c', t', hct', suf, hws, hterm⟩
      rcases List.mem_cons.1 hct' with hh | hh
      · rw [Prod.mk.injEq] at hh
        obtain ⟨rfl, rfl⟩ := hh
        cases suf with
        | nil =>
          rw [terminalIn_nil] at hterm
          apply List.mem_append.2
          left
          apply List.mem_append.2
          left
          rw [if_pos hterm]
          simp [hws]
        | cons s0 suf2 =>
          apply List.mem_append.2
          left
          apply List.mem_append.2
          right
          exact (hhead (pre ++ [c']) w).2 ⟨s0 :: suf2, by simp, by simp [hws], hterm⟩
      · exact List.mem_append.2 (Or.inr (htail.2 ⟨c', t', hh, suf, hws, hterm⟩))

theorem walkChildren_mem (n : TrieNode) :
    childrenWF n.map = true → ∀ (pre w : List Char),
    (w ∈ walkChildren pre n.map ↔
      ∃ suf, suf ≠ [] ∧ w = pre ++ suf ∧ terminalIn n suf = true) := by
  intro hwf pre w
  have hmem : ∀ (c : Char) (t : TrieNode), (c, t) ∈ n.map → ∀ (pre' w' : List Char),
      (w' ∈ walkChildren pre' t.map ↔
        ∃ suf, suf ≠ [] ∧ w' = pre' ++ suf ∧ terminalIn t suf = true) := by
    intro c t hct pre' w'
    have hlt : sizeOf t < sizeOf n := by
      have h1 := List.sizeOf_lt_of_mem hct
      have h2 : sizeOf t < sizeOf (c, t) := by simp_arith
      have h3 := TrieNode.sizeOf_map_lt n
      omega
    exact walkChildren_mem t (childrenWF_mem hwf hct) pre' w'
  rw [walkChildren_mem_list n.map hmem pre w]
  constructor
  · rintro ⟨c, t, hct, suf, hws, hterm⟩
    refine ⟨c :: suf, by simp, hws, ?_⟩
    rw [terminalIn_cons (mem_lookupChild (keysNodup_of_childrenWF hwf) hct)]
    exact hterm
  · rintro ⟨suf, hne, hws, hterm⟩
    cases suf with
    | nil => exact absurd rfl hne
    | cons c suf2 =>
      cases hl : lookupChild n.map c with
      | none =>
        rw [terminalIn_cons_none _ hl] at hterm
        simp at hterm
      | some t =>
        rw [terminalIn_cons hl] at hterm
        exact ⟨c, t, lookupChild_mem hl, suf2, hws, hterm⟩
termination_by sizeOf n

/-! ### A pruned node always has a stored string below or at it -/

theorem pruned_exists_terminal (n : TrieNode) :
    prunedN n = true → ∃ u, terminalIn n u = true := by
  intro hp
  rw [prunedN, Bool.and_eq_true] at hp
  cases he : n.end_of_word with
  | true => exact ⟨[], by rw [terminalIn_nil]; exact he⟩
  | false =>
    have hne : n.map ≠ [] := by
      rcases Bool.or_eq_true_iff.1 hp.1 with h1 | h1
      · rw [he] at h1; simp at h1
      · intro hx
        rw [hx] at h1
        simp at h1
    cases hm : n.map with
    | nil => exact absurd hm hne
    | cons p rest =>
      obtain ⟨c, t⟩ := p
      have hl : lookupChild n.map c = some t := by
        rw [hm]
        simp [lookupChild]
      have hpt : prunedN t = true := @prunedChildren_mem n.map c t hp.2 (by rw [hm]; simp)
      have hlt : sizeOf t < sizeOf n := by
        have h1 : sizeOf t < sizeOf (c, t) := by simp_arith
        have h2 : sizeOf ((c, t) :: rest) ≤ sizeOf n.map := by rw [hm]
        have h3 : sizeOf (c, t) < sizeOf ((c, t) :: rest) := by simp_arith
        have h4 := TrieNode.sizeOf_map_lt n
        omega
      obtain ⟨u, hu⟩ := pruned_exists_terminal t hpt
      exact ⟨c :: u, by rw [terminalIn_cons hl]; exact hu⟩
termination_by sizeOf n

theorem hasTerminalL_of_mem {l : List (Char × TrieNode)} {c : Char} {t : TrieNode}
    (hmem : (c, t) ∈ l) (ht : hasTerminal t = true) : hasTerminalL l = true := by
  induction l with
  | nil => simp at hmem
  | cons p rest ih =>
    obtain ⟨c', t'⟩ := p
    rw [hasTerminalL_cons]
    rcases List.mem_cons.1 hmem with h1 | h1
    · rw [Prod.mk.injEq] at h1
      obtain ⟨rfl, rfl⟩ := h1
      rw [hasTerminal, Bool.or_eq_true] at ht
      rcases ht with ht | ht <;> simp [ht]
    · simp [ih h1]

theorem terminalIn_hasTerminal {n : TrieNode} {u : List Char}
    (h : terminalIn n u = true) : hasTerminal n = true := by
  induction u generalizing n with
  | nil =>
    rw [terminalIn_nil] at h
    rw [hasTerminal, h]
    simp
  | cons c cs ih =>
    cases hl : lookupChild n.map c with
    | none => rw [terminalIn_cons_none _ hl] at h; simp at h
    | some t =>
      rw [terminalIn_cons hl] at h
      rw [hasTerminal, Bool.or_eq_true]
      right
      exact hasTerminalL_of_mem (lookupChild_mem hl) (ih h)

/-! ### Assorted helper lemmas for the claims -/

theorem TrieNode.eta (n : TrieNode) : TrieNode.mk n.map n.end_of_word = n := by
  cases n
  rfl

theorem contains_eq_terminalIn (t : Trie) (s : List Char) :
    t.contains s = terminalIn t.root s := rfl

theorem containsPref_eq_isSome (t : Trie) (s : List Char) :
    t.containsPref s = (findNode t.root s).isSome := rfl

theorem terminalIn_append {root tgt : TrieNode} {s : List Char}
    (hf : findNode root s = some tgt) (r : List Char) :
    terminalIn root (s ++ r) = terminalIn tgt r := by
  rw [terminalIn, terminalIn, findNode_append, hf, Option.some_bind]

theorem findNode_isSome_of_append {root : TrieNode} {s r : List Char} {x : TrieNode}
    (h : findNode root (s ++ r) = some x) : (findNode root s).isSome = true := by
  rw [findNode_append] at h
  cases hf : findNode root s with
  | none => rw [hf] at h; simp at h
  | some m => simp

theorem utf8Len_cons (c : Char) (cs : List Char) :
    utf8Len (c :: cs) = c.utf8Size + utf8Len cs := by
  simp [utf8Len]

theorem utf8Len_one {c : Char} {cs : List Char} (h : utf8Len (c :: cs) = 1) : cs = [] := by
  cases cs with
  | nil => rfl
  | cons d ds =>
    rw [utf8Len_cons, utf8Len_cons] at h
    have h1 := Char.utf8Size_pos c
    have h2 := Char.utf8Size_pos d
    omega

theorem walkChildren_length (pre : List Char) (l : List (Char × TrieNode)) :
    (walkChildren pre l).length = countChildren l := by
  cases l with
  | nil => simp [walkChildren_nil, countChildren_nil]
  | cons p rest =>
    obtain ⟨c, t⟩ := p
    cases t with
    | mk m e =>
      rw [walkChildren_cons, walkChildren_guard, countChildren_cons]
      simp only [List.length_append, TrieNode.map_mk, TrieNode.eow_mk]
      have h1 := walkChildren_length (pre ++ [c]) m
      have h2 := walkChildren_length pre rest
      rw [h1, h2, countTerminals_mk]
      cases e <;> simp
termination_by sizeOf l

theorem insert_contains (t : Trie) {s : List Char} (hs : s ≠ []) :
    (t.insert s).1.contains s = true := by
  simp only [Trie.insert, if_neg hs]
  rw [contains_eq_terminalIn]
  exact insGo_terminalIn t.root s

theorem remove_of_contains {t : Trie} {s : List Char}
    (hwf : childrenWF t.root.map = true) (hs : s ≠ []) (hcont : t.contains s = true) :
    ∃ t2, t.remove s = some (t2, true) ∧ t2.contains s = false := by
  cases hf : findNode t.root s with
  | none =>
    rw [contains_eq_terminalIn, terminalIn, hf] at hcont
    simp at hcont
  | some target =>
    have hte : target.end_of_word = true := by
      rw [contains_eq_terminalIn, terminalIn, hf] at hcont
      exact hcont
    obtain ⟨rf, hw⟩ := removeWalk_of_findNode 0 none hf
    simp only [Trie.remove, if_neg hs, hw]
    rw [if_neg (by simp [hte])]
    cases htm : target.map.isEmpty with
    | false =>
      rw [if_pos (rfl : (false : Bool) = false)]
      obtain ⟨root2, hcf⟩ := clearFlagAt_some hf
      rw [hcf]
      simp only []
      refine ⟨⟨root2, editSize t.stored_size false⟩, rfl, ?_⟩
      rw [contains_eq_terminalIn]
      exact clearFlag_terminalIn_self hcf
    | true =>
      rw [if_neg (by simp)]
      have hW := removeWalk_inv t.root s s 0 none t.root target rf
        (by simp) (by omega) (by rw [List.take_zero, findNode_nil]) (Or.inl rfl) hw
      obtain ⟨hWI, _⟩ := hW
      cases rf with
      | none =>
        rcases hWI with hWI | hWI
        · have : s = [] := List.length_eq_zero.1 hWI
          exact absurd this hs
        · obtain ⟨m, hm, hm2⟩ := hWI
          rw [List.take_length, hf] at hm
          injection hm with hm
          subst hm
          rw [List.isEmpty_iff.1 htm] at hm2
          simp at hm2
      | some idx =>
        obtain ⟨hlt, _, _, _⟩ := hWI
        obtain ⟨root2, hra⟩ := removeAt_some hf hlt
        simp only []
        rw [hra]
        simp only []
        refine ⟨⟨root2, editSize t.stored_size false⟩, rfl, ?_⟩
        rw [contains_eq_terminalIn, terminalIn, removeAt_break hwf hra hlt]

theorem sumCT_map_snd (l : List (Char × TrieNode)) :
    sumCT (l.map Prod.snd) = countChildren l := by
  induction l with
  | nil => simp [sumCT, countChildren_nil]
  | cons p rest ih =>
    obtain ⟨c, t⟩ := p
    rw [countChildren_cons]
    simp only [List.map_cons, sumCT]
    omega

/-! ### The claims -/

/-- C1: the claim says `remove_prefix(s)` leaves every stored string without
prefix `s` contained; the code refutes it.  With "a" and "ab" stored,
`remove_pref("ab")` returns `true` but also deletes the stored proper prefix
"a" (its cut-index tracking has no terminal-flag reset, unlike `remove`), so
`contains("a")` is `false` afterwards. -/
theorem c1_remove_pref_deletes_stored_proper_pref :
    (((Trie.new.insert ['a']).1.insert ['a', 'b']).1.contains ['a'] = true) ∧
    ((((Trie.new.insert ['a']).1.insert ['a', 'b']).1.removePref ['a', 'b']).map
      (fun p => (p.1.contains ['a'], p.2)) = some (false, true)) := by
  exact ⟨rfl, rfl⟩

/-- C2: the claim says no public operation panics, in particular the unwrap of
the cut index in `remove_pref`; the code refutes it.  `remove_pref` compares
the char index `i` with the BYTE length `s.len() - 1`, so on the two-byte
character "é", with "éa" and "éb" stored, the final-node exemption never
applies, `remove_index` stays `None`, and `remove_index.unwrap()` panics
(modelled as `none`). -/
theorem c2_remove_pref_panics_on_multibyte :
    ((Trie.new.insert ['é', 'a']).1.insert ['é', 'b']).1.removePref ['é'] = none := by
  rfl

/-- C3: for every trie reachable through the public interface, `size()` returns
the exact number of stored strings (terminal nodes) and equals the length of
`to_list()` (code: `as_vec`), whether the cached size is present or must be
recomputed by traversal. -/
theorem c3_size_counts_terminals_and_matches_to_list {t : Trie} (h : Reachable t) :
    (t.size).1 = countTerminals t.root ∧ (t.size).1 = (t.asVec).length := by
  obtain ⟨hwf, he, hp, hc⟩ := trieInv_reachable h
  have hsz : (t.size).1 = countTerminals t.root := by
    cases hst : t.stored_size with
    | some k =>
      simp only [Trie.size, hst]
      exact hc k hst
    | none =>
      simp only [Trie.size, hst]
      have hmem : ∀ x ∈ t.root.map.map Prod.snd, prunedN x = true := by
        intro x hx
        rw [List.mem_map] at hx
        obtain ⟨⟨cx, tx⟩, hx1, hx2⟩ := hx
        subst hx2
        exact prunedChildren_mem hp hx1
      rw [sizeLoop_correct _ 0 hmem, sumCT_map_snd, countTerminals_def, he]
      simp
  refine ⟨hsz, ?_⟩
  rw [hsz, Trie.asVec, walkChildren_length, countTerminals_def, he]
  simp

/-- C4: in every trie reachable through the public interface, no childless
non-terminal node other than the root exists (the pruning invariant), and
equivalently every node other than the root — every node reached by a
non-empty path — is terminal or has a terminal descendant. -/
theorem c4_reachable_no_dangling_nodes {t : Trie} (h : Reachable t) :
    prunedChildren t.root.map = true ∧
    ∀ (p : List Char) (n : TrieNode), p ≠ [] → findNode t.root p = some n →
      hasTerminal n = true := by
  obtain ⟨_, _, hp, _⟩ := trieInv_reachable h
  refine ⟨hp, ?_⟩
  intro p n hne hf
  obtain ⟨u, hu⟩ := pruned_exists_terminal n (prunedN_findNode hp hne hf)
  exact terminalIn_hasTerminal hu

/-- C5: for every reachable trie and non-empty string `s`, immediately after
`insert(s)` the trie contains `s`; a subsequent `remove(s)` completes and
afterwards `contains(s)` is `false`. -/
theorem c5_insert_contains_then_remove_not_contains {t : Trie} (h : Reachable t)
    (s : List Char) (hs : s ≠ []) :
    (t.insert s).1.contains s = true ∧
    ∃ t2 b, (t.insert s).1.remove s = some (t2, b) ∧ t2.contains s = false := by
  have h1 := insert_contains t hs
  obtain ⟨hwf1, _, _, _⟩ := trieInv_insert s (trieInv_reachable h)
  obtain ⟨t2, hrm, hnc⟩ := remove_of_contains hwf1 hs h1
  exact ⟨h1, t2, true, hrm, hnc⟩

/-- C6: in a reachable trie where the stored string `s` is a proper prefix of
another stored string `w`, `remove(s)` returns `true`, afterwards `s` is no
longer contained while every other stored string still is, and no nodes are
pruned (every path that existed before still exists: only the terminal flag of
the node for `s` is cleared). -/
theorem c6_remove_shared_pref_nondestructive {t : Trie} (h : Reachable t)
    {s w : List Char} (hcs : t.contains s = true) (hcw : t.contains w = true)
    (hne : s ≠ w) (hpre : ∃ r, w = s ++ r) :
    ∃ t2, t.remove s = some (t2, true) ∧ t2.contains s = false ∧
      (∀ u, u ≠ s → t2.contains u = t.contains u) ∧
      (∀ u, (findNode t2.root u).isSome = (findNode t.root u).isSome) := by
  obtain ⟨hwf, he, hp, _⟩ := trieInv_reachable h
  have hs : s ≠ [] := by
    intro hx
    subst hx
    rw [contains_eq_terminalIn, terminalIn_nil, he] at hcs
    simp at hcs
  obtain ⟨r, rfl⟩ := hpre
  have hr : r ≠ [] := by
    intro hx
    subst hx
    simp at hne
  cases hf : findNode t.root s with
  | none =>
    rw [contains_eq_terminalIn, terminalIn, hf] at hcs
    simp at hcs
  | some target =>
    have hte : target.end_of_word = true := by
      rw [contains_eq_terminalIn, terminalIn, hf] at hcs
      exact hcs
    have htm : target.map.isEmpty = false := by
      rw [contains_eq_terminalIn, terminalIn_append hf] at hcw
      cases r with
      | nil => exact absurd rfl hr
      | cons r0 rs =>
        cases hl : lookupChild target.map r0 with
        | none => rw [terminalIn_cons_none _ hl] at hcw; simp at hcw
        | some x =>
          have : target.map ≠ [] := by
            intro hx
            rw [hx] at hl
            simp [lookupChild] at hl
          simp [List.isEmpty_eq_false, this]
    obtain ⟨rf, hw⟩ := removeWalk_of_findNode 0 none hf
    simp only [Trie.remove, if_neg hs, hw]
    rw [if_neg (by simp [hte]), if_pos htm]
    obtain ⟨root2, hcf⟩ := clearFlagAt_some hf
    rw [hcf]
    simp only []
    refine ⟨⟨root2, editSize t.stored_size false⟩, rfl, ?_, ?_, ?_⟩
    · rw [contains_eq_terminalIn]
      exact clearFlag_terminalIn_self hcf
    · intro u hu
      rw [contains_eq_terminalIn, contains_eq_terminalIn]
      exact clearFlag_terminalIn_ne hcf u hu
    · intro u
      exact clearFlag_path hcf u

/-- C7 counterexample: the claim says a rejected `remove_prefix` call leaves
the state, including the cached size field, exactly as before; the code sets
the cache to `None` before checking the child on the single-byte path.  With
"b" stored (cache `Some 1`), `remove_prefix("a")` returns `false` yet the
cache becomes `None`. -/
theorem c7_counterexample :
    (((Trie.new.insert ['b']).1.removePref ['a']).map
      (fun p => (p.1.stored_size, p.2)) = some (none, false)) ∧
    (Trie.new.insert ['b']).1.stored_size = some 1 := by
  exact ⟨rfl, rfl⟩

/-- C7 (amended): `remove(s)` and `remove_prefix(s)` are rejected-input
no-ops on the trie: on empty `s`, on `s` not stored (for `remove`), or on an
absent prefix path (for `remove_prefix`), the call returns `false` and the
trie — including the cached size — is exactly as before, with one exception:
`remove_prefix` on a single-byte `s` whose child is absent leaves the tree
unchanged but invalidates the cached size (sets it to `None`) before the
check. -/
theorem c7_rejected_inputs_amended (t : Trie) (s : List Char) :
    t.remove [] = some (t, false) ∧
    t.removePref [] = some (t, false) ∧
    (t.contains s = false → t.remove s = some (t, false)) ∧
    (s ≠ [] → utf8Len s = 1 → t.containsPref s = false →
      t.removePref s = some (⟨t.root, none⟩, false)) ∧
    (s ≠ [] → utf8Len s ≠ 1 → t.containsPref s = false →
      t.removePref s = some (t, false)) := by
  refine ⟨by simp [Trie.remove], rfl, ?_, ?_, ?_⟩
  · intro hcf
    by_cases hs : s = []
    · simp [Trie.remove, hs]
    · simp only [Trie.remove, if_neg hs]
      cases hf : findNode t.root s with
      | none => rw [removeWalk_none hf]
      | some m =>
        have hme : m.end_of_word = false := by
          rw [contains_eq_terminalIn, terminalIn, hf] at hcf
          exact hcf
        obtain ⟨rf, hw⟩ := removeWalk_of_findNode 0 none hf
        rw [hw]
        simp only []
        rw [if_pos hme]
  · intro hs hu hcp
    cases s with
    | nil => exact absurd rfl hs
    | cons c cs =>
      have hcs : cs = [] := utf8Len_one hu
      subst hcs
      have hl : lookupChild t.root.map c = none := by
        rw [containsPref_eq_isSome, findNode_cons] at hcp
        cases hl : lookupChild t.root.map c with
        | none => rfl
        | some x =>
          rw [hl] at hcp
          simp only at hcp
          rw [findNode_nil] at hcp
          simp at hcp
      simp only [Trie.removePref]
      rw [if_pos hu, removeChild_of_none hl, hl, TrieNode.eta]
      rfl
  · intro hs hu hcp
    cases s with
    | nil => exact absurd rfl hs
    | cons c cs =>
      have hf : findNode t.root (c :: cs) = none := by
        rw [containsPref_eq_isSome] at hcp
        cases hf : findNode t.root (c :: cs) with
        | none => rfl
        | some x => rw [hf] at hcp; simp at hcp
      simp only [Trie.removePref]
      rw [if_neg hu, removePrefWalk_none hf]

/-- C8: for every reachable trie, `to_list_prefix(s)` (code: `as_vec_pref`)
returns exactly the stored strings having `s` as a prefix — `s` itself
included when stored — and returns the empty sequence both when `s` is empty
and when the prefix path for `s` does not exist. -/
theorem c8_as_vec_pref_exactly_extensions {t : Trie} (h : Reachable t) :
    t.asVecPref [] = [] ∧
    (∀ s, t.containsPref s = false → t.asVecPref s = []) ∧
    (∀ s w, s ≠ [] →
      (w ∈ t.asVecPref s ↔ (t.contains w = true ∧ ∃ r, w = s ++ r))) := by
  obtain ⟨hwf, he, hp, _⟩ := trieInv_reachable h
  refine ⟨by simp [Trie.asVecPref], ?_, ?_⟩
  · intro s hcp
    by_cases hs : s = []
    · simp [Trie.asVecPref, hs]
    · simp only [Trie.asVecPref, if_neg hs]
      rw [containsPref_eq_isSome] at hcp
      cases hf : findNode t.root s with
      | none => rfl
      | some m => rw [hf] at hcp; simp at hcp
  · intro s w hs
    simp only [Trie.asVecPref, if_neg hs]
    cases hf : findNode t.root s with
    | none =>
      simp only []
      constructor
      · intro hw
        simp at hw
      · rintro ⟨hcw, r, rfl⟩
        rw [contains_eq_terminalIn, terminalIn] at hcw
        cases hx : findNode t.root (s ++ r) with
        | none => rw [hx] at hcw; simp at hcw
        | some x =>
          have h2 := findNode_isSome_of_append hx
          rw [hf] at h2
          simp at h2
    | some tgt =>
      simp only []
      have hwftgt : childrenWF tgt.map = true := childrenWF_findNode hwf hf
      have hmm := walkChildren_mem tgt hwftgt s w
      rw [List.mem_append]
      constructor
      · intro hw
        rcases hw with hw | hw
        · cases hte : tgt.end_of_word with
          | false => rw [if_neg (by simp [hte])] at hw; simp at hw
          | true =>
            rw [if_pos hte] at hw
            simp at hw
            subst hw
            refine ⟨?_, [], by simp⟩
            rw [contains_eq_terminalIn, terminalIn, hf]
            exact hte
        · obtain ⟨suf, hne2, rfl, hterm⟩ := hmm.1 hw
          refine ⟨?_, suf, rfl⟩
          rw [contains_eq_terminalIn, terminalIn_append hf]
          exact hterm
      · rintro ⟨hcw, r, rfl⟩
        rw [contains_eq_terminalIn, terminalIn_append hf] at hcw
        cases r with
        | nil =>
          left
          rw [terminalIn_nil] at hcw
          rw [if_pos hcw]
          simp
        | cons r0 rs =>
          right
          exact hmm.2 ⟨r0 :: rs, by simp, rfl, hcw⟩

/-- C9: inserting a string that is already stored is a no-op that returns
`false`: the trie — structure and cached size — is returned unchanged, so in
particular `size()` is unchanged. -/
theorem c9_insert_present_noop {t : Trie} (h : Reachable t) {s : List Char}
    (hs : s ≠ []) (hc : t.contains s = true) :
    t.insert s = (t, false) ∧ ((t.insert s).1.size).1 = (t.size).1 := by
  have heq : t.insert s = (t, false) := by
    simp only [Trie.insert, if_neg hs]
    rw [contains_eq_terminalIn] at hc
    rw [insGo_of_terminalIn hc]
    rfl
  refine ⟨heq, ?_⟩
  rw [heq]

/-- C10: for every reachable trie and non-empty string `s`, the structural
test `contains_prefix(s)` (code: `contains_pref`) is `true` exactly when some
string in `to_list()` (code: `as_vec`) has `s` as a prefix. -/
theorem c10_contains_pref_iff_extension_stored {t : Trie} (h : Reachable t)
    {s : List Char} (hs : s ≠ []) :
    (t.containsPref s = true ↔ ∃ w, w ∈ t.asVec ∧ ∃ r, w = s ++ r) := by
  obtain ⟨hwf, he, hp, _⟩ := trieInv_reachable h
  constructor
  · intro hcp
    rw [containsPref_eq_isSome] at hcp
    cases hf : findNode t.root s with
    | none => rw [hf] at hcp; simp at hcp
    | some m =>
      obtain ⟨u, hu⟩ := pruned_exists_terminal m (prunedN_findNode hp hs hf)
      refine ⟨s ++ u, ?_, u, rfl⟩
      rw [Trie.asVec]
      refine (walkChildren_mem t.root hwf [] (s ++ u)).2 ⟨s ++ u, ?_, by simp, ?_⟩
      · simp [hs]
      · rw [terminalIn_append hf]
        exact hu
  · rintro ⟨w, hw, r, rfl⟩
    rw [Trie.asVec] at hw
    obtain ⟨suf, hne2, hws, hterm⟩ := (walkChildren_mem t.root hwf [] (s ++ r)).1 hw
    simp at hws
    subst hws
    rw [containsPref_eq_isSome]
    cases hx : findNode t.root (s ++ r) with
    | none => rw [terminalIn, hx] at hterm; simp at hterm
    | some x =>
      exact findNode_isSome_of_append hx

/-! ### Witnesses -/

/-- Witness for C3 at the reachable trie holding "a". -/
theorem c3_witness :
    (((Trie.new.insert ['a']).1).size).1 = countTerminals ((Trie.new.insert ['a']).1).root ∧
    (((Trie.new.insert ['a']).1).size).1 = (((Trie.new.insert ['a']).1).asVec).length :=
  c3_size_counts_terminals_and_matches_to_list (Reachable.insert ['a'] Reachable.new)

/-- Witness for C4 at the reachable trie holding "a". -/
theorem c4_witness :
    prunedChildren ((Trie.new.insert ['a']).1).root.map = true ∧
    ∀ (p : List Char) (n : TrieNode), p ≠ [] →
      findNode ((Trie.new.insert ['a']).1).root p = some n → hasTerminal n = true :=
  c4_reachable_no_dangling_nodes (Reachable.insert ['a'] Reachable.new)

/-- Witness for C5 at the empty trie and the string "a". -/
theorem c5_witness :
    ((Trie.new.insert ['a']).1).contains ['a'] = true ∧
    ∃ t2 b, ((Trie.new.insert ['a']).1).remove ['a'] = some (t2, b) ∧
      t2.contains ['a'] = false :=
  c5_insert_contains_then_remove_not_contains Reachable.new ['a'] (by decide)

/-- Witness for C6 at the reachable trie holding "a" and "ab", removing "a". -/
theorem c6_witness :
    ∃ t2, (((Trie.new.insert ['a']).1.insert ['a', 'b']).1).remove ['a'] = some (t2, true) ∧
      t2.contains ['a'] = false ∧
      (∀ u, u ≠ ['a'] →
        t2.contains u = (((Trie.new.insert ['a']).1.insert ['a', 'b']).1).contains u) ∧
      (∀ u, (findNode t2.root u).isSome
        = (findNode (((Trie.new.insert ['a']).1.insert ['a', 'b']).1).root u).isSome) :=
  c6_remove_shared_pref_nondestructive
    (Reachable.insert ['a', 'b'] (Reachable.insert ['a'] Reachable.new))
    (by decide) (by decide) (by decide) ⟨['b'], rfl⟩

/-- Witness for C7 (amended) at the reachable trie holding "b" and inputs that
are rejected: `remove("a")` is a strict no-op and single-byte
`remove_prefix("a")` keeps the tree but drops the cache. -/
theorem c7_witness :
    ((Trie.new.insert ['b']).1).remove ['a'] = some ((Trie.new.insert ['b']).1, false) ∧
    ((Trie.new.insert ['b']).1).removePref ['a']
      = some (⟨((Trie.new.insert ['b']).1).root, none⟩, false) :=
  ⟨(c7_rejected_inputs_amended (Trie.new.insert ['b']).1 ['a']).2.2.1 (by decide),
   (c7_rejected_inputs_amended (Trie.new.insert ['b']).1 ['a']).2.2.2.1
     (by decide) (by decide) (by decide)⟩

/-- Witness for C8 at the reachable trie holding "a". -/
theorem c8_witness :
    ((Trie.new.insert ['a']).1).asVecPref [] = [] ∧
    (∀ s, ((Trie.new.insert ['a']).1).containsPref s = false →
      ((Trie.new.insert ['a']).1).asVecPref s = []) ∧
    (∀ s w, s ≠ [] →
      (w ∈ ((Trie.new.insert ['a']).1).asVecPref s ↔
        (((Trie.new.insert ['a']).1).contains w = true ∧ ∃ r, w = s ++ r))) :=
  c8_as_vec_pref_exactly_extensions (Reachable.insert ['a'] Reachable.new)

/-- Witness for C9 at the reachable trie holding "a", re-inserting "a". -/
theorem c9_witness :
    ((Trie.new.insert ['a']).1).insert ['a'] = ((Trie.new.insert ['a']).1, false) ∧
    ((((Trie.new.insert ['a']).1).insert ['a']).1.size).1 = (((Trie.new.insert ['a']).1).size).1 :=
  c9_insert_present_noop (Reachable.insert ['a'] Reachable.new) (by decide) (by decide)

/-- Witness for C10 at the reachable trie holding "a" and the prefix "a". -/
theorem c10_witness :
    (((Trie.new.insert ['a']).1).containsPref ['a'] = true ↔
      ∃ w, w ∈ ((Trie.new.insert ['a']).1).asVec ∧ ∃ r, w = ['a'] ++ r) :=
  c10_contains_pref_iff_extension_stored (Reachable.insert ['a'] Reachable.new) (by decide)
